import Mathlib

set_option autoImplicit false

/-!
Shallow embedding of the Anchor code-intelligence graph engine
(`src/graph/engine.rs`, `src/graph/types.rs`) and of the MCP JSON-RPC
dispatcher (`src/mcp/server.rs`, `src/mcp/types.rs`), together with
theorems settling the frozen claims about the natural-language spec.

Modelling conventions:
* `PathBuf` is modelled as `String`; path equality is string equality.
* petgraph's `DiGraph` is modelled as a node list (a `NodeIndex` is a
  position in that list; nodes are only ever appended, matching petgraph's
  behaviour in a program that never calls `remove_node`) plus an edge list
  in insertion order.  `edges_directed` iterates a node's edges from the
  most recently added one backwards (petgraph keeps per-node linked lists
  with the newest edge at the head), hence the `.reverse` in
  `outgoingEdges` / `incomingEdges`.
* `HashMap` is modelled as an association list in insertion order;
  `insert` overwrites in place, `remove` deletes the entry.  Rust's
  `HashMap` iteration order is arbitrary; the insertion order used here is
  one concrete refinement of it.
* Indexing a petgraph with an invalid handle panics in Rust; the model
  uses `List.getElem?` and skips such (unreachable under the engine's
  invariants) accesses.
* `String::to_lowercase` / `starts_with` / `contains` are modelled
  character-wise over `String.data`.
-/

namespace Anchor

/-- Rust `str::to_lowercase`, modelled character-wise. -/
def strLower (s : String) : String :=
  String.mk (s.data.map Char.toLower)

/-- Rust `str::starts_with`. -/
def strStartsWith (s pre : String) : Bool :=
  pre.data.isPrefixOf s.data

/-- Rust `str::contains` (substring containment; the empty needle always matches). -/
def strContainsSub (s sub : String) : Bool :=
  s.data.tails.any (fun t => sub.data.isPrefixOf t)

/-- Helper for `fileName`: keep the characters seen since the last `/`. -/
def fileNameAux : List Char → List Char → List Char
  | [], acc => acc
  | c :: rest, acc => if c = '/' then fileNameAux rest [] else fileNameAux rest (acc ++ [c])

/-- Rust `Path::file_name().unwrap_or_default()`: the component after the
last `/` (paths in this codebase never end in a separator). -/
def fileName (p : String) : String :=
  String.mk (fileNameAux p.data [])

/-- `NodeKind` from `src/graph/types.rs` (`Type` is renamed `TypeDef`:
`Type` is a Lean keyword). -/
inductive NodeKind where
  | File | Function | Method | Struct | Class | Interface | Enum
  | TypeDef | Constant | Module | Import | Trait | Impl | Variable
deriving DecidableEq

/-- `EdgeKind` from `src/graph/types.rs`. -/
inductive EdgeKind where
  | Defines | Calls | Imports | Contains | UsesType | Implements
  | Extends | Exports | References | Parameter | Returns
deriving DecidableEq

/-- `NodeData` from `src/graph/types.rs`. -/
structure NodeData where
  name : String
  kind : NodeKind
  file_path : String
  line_start : Nat
  line_end : Nat
  code_snippet : String
  removed : Bool
deriving DecidableEq

/-- `NodeData::new_file`. -/
def NodeData.new_file (path : String) : NodeData :=
  { name := fileName path
    kind := .File
    file_path := path
    line_start := 0
    line_end := 0
    code_snippet := ""
    removed := false }

/-- `NodeData::new_symbol`. -/
def NodeData.new_symbol (name : String) (kind : NodeKind) (file_path : String)
    (line_start line_end : Nat) (code_snippet : String) : NodeData :=
  { name, kind, file_path, line_start, line_end, code_snippet, removed := false }

/-- One edge of the petgraph: source, target, and the `EdgeData` payload (its kind). -/
structure Edge where
  src : Nat
  tgt : Nat
  kind : EdgeKind
deriving DecidableEq

/-- `HashMap::get`, on the association-list model. -/
def lookupA {α β : Type} [DecidableEq α] : List (α × β) → α → Option β
  | [], _ => none
  | (k, v) :: rest, a => if k = a then some v else lookupA rest a

/-- `HashMap::insert`: overwrite in place, or append a fresh entry. -/
def insertA {α β : Type} [DecidableEq α] : List (α × β) → α → β → List (α × β)
  | [], k, v => [(k, v)]
  | (k', v') :: rest, k, v =>
    if k' = k then (k', v) :: rest else (k', v') :: insertA rest k v

/-- `HashMap::remove`. -/
def removeA {α β : Type} [DecidableEq α] (l : List (α × β)) (k : α) : List (α × β) :=
  l.filter (fun kv => kv.1 ≠ k)

/-- `map.entry(k).or_default().push(v)` on a `HashMap<_, Vec<_>>`. -/
def pushA {α β : Type} [DecidableEq α] : List (α × List β) → α → β → List (α × List β)
  | [], k, v => [(k, [v])]
  | (k', vs) :: rest, k, v =>
    if k' = k then (k', vs ++ [v]) :: rest else (k', vs) :: pushA rest k v

/-- `CodeGraph` from `src/graph/engine.rs`: the petgraph plus the three indices. -/
structure CodeGraph where
  nodes : List NodeData
  edges : List Edge
  file_index : List (String × Nat)
  symbol_index : List (String × List Nat)
  qualified_index : List ((String × String) × Nat)
deriving DecidableEq

/-- `CodeGraph::new`. -/
def CodeGraph.empty : CodeGraph :=
  { nodes := [], edges := [], file_index := [], symbol_index := [], qualified_index := [] }

namespace CodeGraph

/-- `graph.node_weight(idx)`. -/
def getNode? (g : CodeGraph) (idx : Nat) : Option NodeData :=
  g.nodes[idx]?

/-- `CodeGraph::is_live`. -/
def is_live (g : CodeGraph) (idx : Nat) : Bool :=
  match g.getNode? idx with
  | none => false
  | some n => !n.removed

/-- `graph.edges_directed(idx, Direction::Outgoing)`: newest edge first. -/
def outgoingEdges (g : CodeGraph) (idx : Nat) : List Edge :=
  (g.edges.filter (fun e => e.src = idx)).reverse

/-- `graph.edges_directed(idx, Direction::Incoming)`: newest edge first. -/
def incomingEdges (g : CodeGraph) (idx : Nat) : List Edge :=
  (g.edges.filter (fun e => e.tgt = idx)).reverse

/-- `if let Some(node) = graph.node_weight_mut(idx) { node.removed = b }`. -/
def setRemoved (nodes : List NodeData) (idx : Nat) (b : Bool) : List NodeData :=
  match nodes[idx]? with
  | none => nodes
  | some d => nodes.set idx { d with removed := b }

/-- `CodeGraph::add_file`. -/
def add_file (g : CodeGraph) (path : String) : CodeGraph × Nat :=
  match lookupA g.file_index path with
  | some idx => ({ g with nodes := setRemoved g.nodes idx false }, idx)
  | none =>
    let idx := g.nodes.length
    ({ g with nodes := g.nodes ++ [NodeData.new_file path]
              file_index := g.file_index ++ [(path, idx)] }, idx)

/-- `CodeGraph::add_symbol`: always creates a fresh node and updates both indices. -/
def add_symbol (g : CodeGraph) (name : String) (kind : NodeKind) (file_path : String)
    (line_start line_end : Nat) (code_snippet : String) : CodeGraph × Nat :=
  let idx := g.nodes.length
  ({ g with
      nodes := g.nodes ++ [NodeData.new_symbol name kind file_path line_start line_end code_snippet]
      symbol_index := pushA g.symbol_index name idx
      qualified_index := insertA g.qualified_index (file_path, name) idx }, idx)

/-- `CodeGraph::add_edge`. -/
def add_edge (g : CodeGraph) (src tgt : Nat) (kind : EdgeKind) : CodeGraph :=
  { g with edges := g.edges ++ [⟨src, tgt, kind⟩] }

end CodeGraph

/-- `SymbolRef` from `src/graph/engine.rs`. -/
structure SymbolRef where
  name : String
  file : String
  line : Nat
deriving DecidableEq

/-- `SearchResult` from `src/graph/engine.rs`. -/
structure SearchResult where
  symbol : String
  kind : NodeKind
  file : String
  line_start : Nat
  line_end : Nat
  code : String
  calls : List SymbolRef
  called_by : List SymbolRef
  imports : List String
deriving DecidableEq

/-- `DependencyInfo` from `src/graph/engine.rs`. -/
structure DependencyInfo where
  symbol : String
  kind : NodeKind
  file : String
  line : Nat
  relationship : EdgeKind
deriving DecidableEq

/-- `GraphStats` from `src/graph/engine.rs`. -/
structure GraphStats where
  total_nodes : Nat
  total_edges : Nat
  file_count : Nat
  symbol_count : Nat
  unique_symbol_names : Nat
deriving DecidableEq

namespace CodeGraph

/-- `CodeGraph::build_search_result`. -/
def build_search_result (g : CodeGraph) (idx : Nat) : Option SearchResult :=
  match g.getNode? idx with
  | none => none
  | some node =>
    if node.kind = .File || node.removed then none
    else
      let calls : List SymbolRef :=
        (g.outgoingEdges idx).filterMap (fun e =>
          if e.kind = .Calls && g.is_live e.tgt then
            (g.getNode? e.tgt).map (fun t => ⟨t.name, t.file_path, t.line_start⟩)
          else none)
      let called_by : List SymbolRef :=
        (g.incomingEdges idx).filterMap (fun e =>
          if e.kind = .Calls && g.is_live e.src then
            (g.getNode? e.src).map (fun s => ⟨s.name, s.file_path, s.line_start⟩)
          else none)
      let imports : List String :=
        match lookupA g.file_index node.file_path with
        | some file_idx =>
          (g.outgoingEdges file_idx).filterMap (fun e =>
            if e.kind = .Imports && g.is_live e.tgt then
              (g.getNode? e.tgt).map (fun t => t.name)
            else none)
        | none => []
      some { symbol := node.name, kind := node.kind, file := node.file_path
             line_start := node.line_start, line_end := node.line_end
             code := node.code_snippet, calls := calls, called_by := called_by
             imports := imports }

/-- Rust's stable `slice::sort_by_key` on the `(score, index)` pairs of
`search` (insertion sort placing each element after already-placed elements
of equal key computes exactly the stable ordering). -/
def insertByKey (a : Nat × Nat) : List (Nat × Nat) → List (Nat × Nat)
  | [] => [a]
  | b :: rest => if b.1 ≤ a.1 then b :: insertByKey a rest else a :: b :: rest

/-- The fold driving `insertByKey`: stable sort by the first component. -/
def sortByKey (l : List (Nat × Nat)) : List (Nat × Nat) :=
  l.foldl (fun acc a => insertByKey a acc) []

/-- The score assigned in `CodeGraph::search`'s substring phase:
`exact(0)` needs byte-equal names, `starts_with(1)` compares lowercased. -/
def fuzzyScore (query query_lower : String) (node : NodeData) : Nat :=
  if node.name = query then 0
  else if strStartsWith (strLower node.name) query_lower then 1
  else 2

/-- The `(score, index)` pool collected by `CodeGraph::search`'s substring
phase: every non-removed entry of a `symbol_index` bucket whose lowercased
key contains the lowercased query. -/
def fuzzyScored (g : CodeGraph) (query query_lower : String) : List (Nat × Nat) :=
  (g.symbol_index.filter (fun kv => strContainsSub (strLower kv.1) query_lower)).flatMap
    (fun kv => kv.2.filterMap (fun idx =>
      match g.getNode? idx with
      | none => none
      | some node =>
        if node.removed then none
        else some (fuzzyScore query query_lower node, idx)))

/-- `CodeGraph::search`: exact `symbol_index` hit first, otherwise the scored
substring scan over all index entries (stable sort by score, matching Rust's
stable `sort_by_key`). -/
def search (g : CodeGraph) (query : String) (limit : Nat) : List SearchResult :=
  let query_lower := strLower query
  let exact : List SearchResult :=
    match lookupA g.symbol_index query with
    | some indexes => (indexes.take limit).filterMap g.build_search_result
    | none => []
  if exact.isEmpty then
    let sorted := sortByKey (fuzzyScored g query query_lower)
    (sorted.take limit).filterMap (fun si => g.build_search_result si.2)
  else exact

/-- `CodeGraph::dependents`. -/
def dependents (g : CodeGraph) (symbol_name : String) : List DependencyInfo :=
  match lookupA g.symbol_index symbol_name with
  | none => []
  | some indexes =>
    indexes.flatMap (fun idx =>
      if g.is_live idx then
        (g.incomingEdges idx).filterMap (fun e =>
          if g.is_live e.src then
            (g.getNode? e.src).map (fun s =>
              ⟨s.name, s.kind, s.file_path, s.line_start, e.kind⟩)
          else none)
      else [])

/-- `CodeGraph::dependencies`. -/
def dependencies (g : CodeGraph) (symbol_name : String) : List DependencyInfo :=
  match lookupA g.symbol_index symbol_name with
  | none => []
  | some indexes =>
    indexes.flatMap (fun idx =>
      if g.is_live idx then
        (g.outgoingEdges idx).filterMap (fun e =>
          if g.is_live e.tgt then
            (g.getNode? e.tgt).map (fun t =>
              ⟨t.name, t.kind, t.file_path, t.line_start, e.kind⟩)
          else none)
      else [])

/-- `CodeGraph::symbols_in_file`. -/
def symbols_in_file (g : CodeGraph) (path : String) : List NodeData :=
  match lookupA g.file_index path with
  | none => []
  | some file_idx =>
    if g.is_live file_idx then
      (g.outgoingEdges file_idx).filterMap (fun e =>
        if e.kind = .Defines && g.is_live e.tgt then g.getNode? e.tgt else none)
    else []

/-- `CodeGraph::find_qualified`. -/
def find_qualified (g : CodeGraph) (file_path name : String) : Option NodeData :=
  (lookupA g.qualified_index (file_path, name)).bind (fun idx =>
    match g.getNode? idx with
    | none => none
    | some node => if node.removed then none else some node)

/-- `CodeGraph::stats`. -/
def stats (g : CodeGraph) : GraphStats :=
  let file_count := g.nodes.countP (fun n => !n.removed && decide (n.kind = .File))
  let symbol_count := g.nodes.countP (fun n => !n.removed && !decide (n.kind = .File))
  { total_nodes := file_count + symbol_count
    total_edges := g.edges.length
    file_count := file_count
    symbol_count := symbol_count
    unique_symbol_names := g.symbol_index.length }

/-- The `symbol_index` clean-up inside `CodeGraph::remove_file`:
retain every handle other than `idx` under key `name`, dropping the key
when its list empties. -/
def purgeSymbolIndex : List (String × List Nat) → String → Nat → List (String × List Nat)
  | [], _, _ => []
  | (k, vs) :: rest, name, idx =>
    if k = name then
      let vs' := vs.filter (fun i => i ≠ idx)
      if vs'.isEmpty then rest else (k, vs') :: rest
    else (k, vs) :: purgeSymbolIndex rest name idx

/-- One iteration of `remove_file`'s child loop: soft-delete the child and
purge it from both symbol indices. -/
def removeChildNode (g : CodeGraph) (node_idx : Nat) : CodeGraph :=
  match g.getNode? node_idx with
  | none => g
  | some node =>
    { g with
        nodes := g.nodes.set node_idx { node with removed := true }
        symbol_index := purgeSymbolIndex g.symbol_index node.name node_idx
        qualified_index := removeA g.qualified_index (node.file_path, node.name) }

/-- `CodeGraph::remove_file`. -/
def remove_file (g : CodeGraph) (path : String) : CodeGraph :=
  match lookupA g.file_index path with
  | none => g
  | some file_idx =>
    let child_nodes := (g.outgoingEdges file_idx).map (fun e => e.tgt)
    let g1 := child_nodes.foldl removeChildNode g
    { g1 with
        nodes := setRemoved g1.nodes file_idx true
        file_index := removeA g1.file_index path }

end CodeGraph

/-- `ExtractedSymbol` from `src/graph/types.rs`. -/
structure ExtractedSymbol where
  name : String
  kind : NodeKind
  line_start : Nat
  line_end : Nat
  code_snippet : String
  parent : Option String
deriving DecidableEq

/-- `ExtractedImport` from `src/graph/types.rs`. -/
structure ExtractedImport where
  path : String
  symbols : List String
  line : Nat
deriving DecidableEq

/-- `ExtractedCall` from `src/graph/types.rs`. -/
structure ExtractedCall where
  callee : String
  caller : String
  line : Nat
deriving DecidableEq

/-- `FileExtractions` from `src/graph/types.rs`. -/
structure FileExtractions where
  file_path : String
  symbols : List ExtractedSymbol
  imports : List ExtractedImport
  calls : List ExtractedCall
deriving DecidableEq

namespace CodeGraph

/-- Phase 1 symbol loop of `build_from_extractions`: each symbol becomes a
fresh node plus a `File -Defines-> Symbol` edge. -/
def phase1Symbols (file_idx : Nat) (file_path : String) :
    CodeGraph → List ExtractedSymbol → CodeGraph
  | g, [] => g
  | g, s :: rest =>
    let gi := g.add_symbol s.name s.kind file_path s.line_start s.line_end s.code_snippet
    phase1Symbols file_idx file_path (gi.1.add_edge file_idx gi.2 .Defines) rest

/-- Phase 1 import loop: each import becomes an `Import`-kind node plus a
`File -Imports-> Import` edge. -/
def phase1Imports (file_idx : Nat) (file_path : String) :
    CodeGraph → List ExtractedImport → CodeGraph
  | g, [] => g
  | g, im :: rest =>
    let gi := g.add_symbol im.path .Import file_path im.line im.line ""
    phase1Imports file_idx file_path (gi.1.add_edge file_idx gi.2 .Imports) rest

/-- Phase 1 for one extraction: insert/resurrect the file, then its symbols
and imports. -/
def phase1File (g : CodeGraph) (ex : FileExtractions) : CodeGraph :=
  let gf := g.add_file ex.file_path
  phase1Imports gf.2 ex.file_path (phase1Symbols gf.2 ex.file_path gf.1 ex.symbols) ex.imports

/-- Phase 2 for one call record: caller via `qualified_index`, callee via the
first `symbol_index` candidate. -/
def phase2Call (file_path : String) (g : CodeGraph) (call : ExtractedCall) : CodeGraph :=
  let callee_nodes := lookupA g.symbol_index call.callee
  match lookupA g.qualified_index (file_path, call.caller) with
  | none => g
  | some caller_idx =>
    match callee_nodes with
    | none => g
    | some callee_indexes =>
      match callee_indexes.head? with
      | none => g
      | some callee_idx => g.add_edge caller_idx callee_idx .Calls

/-- Phase 3 for one symbol: `parent -Contains-> child` when both resolve in
`qualified_index` for the same file. -/
def phase3Symbol (file_path : String) (g : CodeGraph) (s : ExtractedSymbol) : CodeGraph :=
  match s.parent with
  | none => g
  | some parent_name =>
    match lookupA g.qualified_index (file_path, parent_name),
          lookupA g.qualified_index (file_path, s.name) with
    | some parent_idx, some child_idx => g.add_edge parent_idx child_idx .Contains
    | _, _ => g

/-- `CodeGraph::build_from_extractions`: the three global passes. -/
def build_from_extractions (g : CodeGraph) (extractions : List FileExtractions) : CodeGraph :=
  let g1 := extractions.foldl phase1File g
  let g2 := extractions.foldl (fun h ex => ex.calls.foldl (phase2Call ex.file_path) h) g1
  extractions.foldl (fun h ex => ex.symbols.foldl (phase3Symbol ex.file_path) h) g2

/-- Key-insertion into the `live_files` map of `compact`: re-inserting an
existing key leaves its position unchanged (HashMap semantics). -/
def insertKey : List String → String → List String
  | [], p => [p]
  | q :: rest, p => if q = p then q :: rest else q :: insertKey rest p

/-- The `live_files` key set of `compact`: paths of live `File` nodes. -/
def livePaths (g : CodeGraph) : List String :=
  ((g.nodes.filter (fun n => !n.removed && decide (n.kind = .File))).map
    (fun n => n.file_path)).foldl insertKey []

/-- The node re-adding loop of `compact`: walk the old node list (carrying the
old index), re-adding live nodes into the new graph and recording the
old-to-new handle mapping. -/
def readdNodes : CodeGraph → List (Nat × Nat) → Nat → List NodeData →
    CodeGraph × List (Nat × Nat)
  | ng, otn, _, [] => (ng, otn)
  | ng, otn, idx, n :: rest =>
    if n.removed then readdNodes ng otn (idx + 1) rest
    else if n.kind = .File then
      match lookupA ng.file_index n.file_path with
      | some new_idx => readdNodes ng (insertA otn idx new_idx) (idx + 1) rest
      | none => readdNodes ng otn (idx + 1) rest
    else
      let gi := ng.add_symbol n.name n.kind n.file_path n.line_start n.line_end n.code_snippet
      readdNodes gi.1 (insertA otn idx gi.2) (idx + 1) rest

/-- `CodeGraph::compact`: snapshot live files, rebuild a fresh engine, re-add
live nodes and every edge whose endpoints both survived. -/
def compact (g : CodeGraph) : CodeGraph :=
  let new0 := (livePaths g).foldl (fun ng p => (ng.add_file p).1) CodeGraph.empty
  let res := readdNodes new0 [] 0 g.nodes
  g.edges.foldl (fun ng e =>
    match lookupA res.2 e.src, lookupA res.2 e.tgt with
    | some new_src, some new_tgt => ng.add_edge new_src new_tgt e.kind
    | _, _ => ng) res.1

end CodeGraph

/-- `SymbolInfo` from `src/graph/types.rs`. -/
structure SymbolInfo where
  name : String
  kind : NodeKind
  file : String
  line : Nat
  code : String
deriving DecidableEq

/-- `ConnectionInfo` from `src/graph/types.rs` (`from` and `to` are Lean
keywords, hence `from_` / `to_`). -/
structure ConnectionInfo where
  from_ : String
  to_ : String
  relationship : EdgeKind
deriving DecidableEq

/-- `GraphSearchResult`.  Note: `src/graph/engine.rs` assigns
`result.truncated`, while the struct printed in `src/graph/types.rs` lacks
that field; the engine is taken as authoritative and the field is included
(defaulting to `false`, as `Default` would derive). -/
structure GraphSearchResult where
  match_type : String
  matched_files : List String
  symbols : List SymbolInfo
  connections : List ConnectionInfo
  truncated : Bool
deriving DecidableEq

/-- `GraphSearchResult::default()`. -/
def GraphSearchResult.default : GraphSearchResult :=
  { match_type := "", matched_files := [], symbols := [], connections := [], truncated := false }

namespace CodeGraph

/-- `SymbolInfo` built from a node, as in `search_graph`. -/
def mkSymbolInfo (n : NodeData) : SymbolInfo :=
  ⟨n.name, n.kind, n.file_path, n.line_start, n.code_snippet⟩

/-- One step of the `Defines` loop in `search_graph`'s file branch. -/
def fbFileStep (g : CodeGraph) (e : Edge) (idxs : List Nat) (syms : List SymbolInfo) :
    List Nat × List SymbolInfo :=
  if e.kind = .Defines && g.is_live e.tgt then
    match g.getNode? e.tgt with
    | none => (idxs, syms)
    | some node => (idxs ++ [e.tgt], syms ++ [mkSymbolInfo node])
  else (idxs, syms)

/-- The inner `Defines` loop of `search_graph`'s file branch: collect symbols
of one matched file, breaking at the 50-symbol cap. -/
def fbFileSymbols (g : CodeGraph) :
    List Edge → List Nat → List SymbolInfo → List Nat × List SymbolInfo
  | [], idxs, syms => (idxs, syms)
  | e :: rest, idxs, syms =>
    if syms.length ≥ 50 then (idxs, syms)
    else
      let r := fbFileStep g e idxs syms
      fbFileSymbols g rest r.1 r.2

/-- The outer loop of the file branch: one iteration per matched file,
breaking (before recording the file) once 50 symbols are collected. -/
def fbFiles (g : CodeGraph) :
    List (String × Nat) → List String → List Nat → List SymbolInfo →
    List String × List Nat × List SymbolInfo
  | [], files, idxs, syms => (files, idxs, syms)
  | (path, file_idx) :: rest, files, idxs, syms =>
    if syms.length ≥ 50 then (files, idxs, syms)
    else
      let r := fbFileSymbols g (g.outgoingEdges file_idx) idxs syms
      fbFiles g rest (files ++ [path]) r.1 r.2

/-- The far endpoint of an edge for the direction being scanned
(`edge.target()` when iterating outgoing edges, `edge.source()` otherwise). -/
def endpointOf (e : Edge) (outgoing : Bool) : Nat :=
  if outgoing then e.tgt else e.src

/-- One edge step of the file branch's one-hop connection expansion
(`outgoing` selects the edge direction being scanned). -/
def fbConnStep (g : CodeGraph) (nodeName : String) (outgoing : Bool) (e : Edge)
    (visited : List Nat) (conns : List ConnectionInfo) :
    List Nat × List ConnectionInfo :=
  if g.is_live (endpointOf e outgoing) && !(visited.contains (endpointOf e outgoing)) then
    match g.getNode? (endpointOf e outgoing) with
    | none => (endpointOf e outgoing :: visited, conns)
    | some onode =>
      if onode.kind = .File then (endpointOf e outgoing :: visited, conns)
      else
        (endpointOf e outgoing :: visited, conns ++
          [if outgoing then (⟨nodeName, onode.name, e.kind⟩ : ConnectionInfo)
           else ⟨onode.name, nodeName, e.kind⟩])
  else (visited, conns)

/-- One direction of the file branch's one-hop connection expansion,
breaking at the 100-connection cap. -/
def fbConnEdges (g : CodeGraph) (nodeName : String) (outgoing : Bool) :
    List Edge → List Nat → List ConnectionInfo → List Nat × List ConnectionInfo
  | [], visited, conns => (visited, conns)
  | e :: rest, visited, conns =>
    if conns.length ≥ 100 then (visited, conns)
    else
      let r := fbConnStep g nodeName outgoing e visited conns
      fbConnEdges g nodeName outgoing rest r.1 r.2

/-- The file branch's per-seed-symbol connection loop. -/
def fbConns (g : CodeGraph) :
    List Nat → List Nat → List ConnectionInfo → List ConnectionInfo
  | [], _, conns => conns
  | idx :: rest, visited, conns =>
    if conns.length ≥ 100 then conns
    else
      let nodeName := ((g.getNode? idx).map (fun n => n.name)).getD ""
      let r1 := fbConnEdges g nodeName true (g.outgoingEdges idx) visited conns
      let r2 := fbConnEdges g nodeName false (g.incomingEdges idx) r1.1 r1.2
      fbConns g rest r2.1 r2.2

/-- One edge step of the symbol branch's BFS (also enqueues the neighbour). -/
def sbEdgeStep (g : CodeGraph) (nodeName : String) (d : Nat) (outgoing : Bool) (e : Edge)
    (visited : List Nat) (queue : List (Nat × Nat)) (conns : List ConnectionInfo) :
    List Nat × List (Nat × Nat) × List ConnectionInfo :=
  if g.is_live (endpointOf e outgoing) && !(visited.contains (endpointOf e outgoing)) then
    match g.getNode? (endpointOf e outgoing) with
    | none => (endpointOf e outgoing :: visited, queue ++ [(endpointOf e outgoing, d + 1)], conns)
    | some onode =>
      if onode.kind = .File then
        (endpointOf e outgoing :: visited, queue ++ [(endpointOf e outgoing, d + 1)], conns)
      else
        (endpointOf e outgoing :: visited, queue ++ [(endpointOf e outgoing, d + 1)], conns ++
          [if outgoing then (⟨nodeName, onode.name, e.kind⟩ : ConnectionInfo)
           else ⟨onode.name, nodeName, e.kind⟩])
  else (visited, queue, conns)

/-- One BFS step's edge scan in the symbol branch (one direction), breaking
at the 100-connection cap. -/
def sbEdges (g : CodeGraph) (nodeName : String) (d : Nat) (outgoing : Bool) :
    List Edge → List Nat → List (Nat × Nat) → List ConnectionInfo →
    List Nat × List (Nat × Nat) × List ConnectionInfo
  | [], visited, queue, conns => (visited, queue, conns)
  | e :: rest, visited, queue, conns =>
    if conns.length ≥ 100 then (visited, queue, conns)
    else
      let r := sbEdgeStep g nodeName d outgoing e visited queue conns
      sbEdges g nodeName d outgoing rest r.1 r.2.1 r.2.2

/-- The symbol list update of one BFS pop. -/
def sbPushSym (g : CodeGraph) (idx : Nat) (syms : List SymbolInfo) : List SymbolInfo :=
  match g.getNode? idx with
  | some node =>
    if node.kind ≠ .File && syms.length < 50 then syms ++ [mkSymbolInfo node] else syms
  | none => syms

/-- The symbol branch's BFS loop, fuelled.  The fuel passed by `search_graph`
always dominates the number of possible queue pops (every enqueued index is
freshly inserted into `visited` and indices are bounded by the node count),
so the fuel case never fires on the arguments `search_graph` supplies. -/
def sbLoop (g : CodeGraph) (depth : Nat) :
    Nat → List (Nat × Nat) → List Nat → List SymbolInfo → List ConnectionInfo →
    List SymbolInfo × List ConnectionInfo
  | 0, _, _, syms, conns => (syms, conns)
  | _ + 1, [], _, syms, conns => (syms, conns)
  | fuel + 1, (idx, d) :: queue, visited, syms, conns =>
    if syms.length ≥ 50 && conns.length ≥ 100 then (syms, conns)
    else
      let syms' := sbPushSym g idx syms
      if d < depth && conns.length < 100 then
        let nodeName := ((g.getNode? idx).map (fun n => n.name)).getD ""
        let r1 := sbEdges g nodeName d true (g.outgoingEdges idx) visited queue conns
        let r2 := sbEdges g nodeName d false (g.incomingEdges idx) r1.1 r1.2.1 r1.2.2
        sbLoop g depth fuel r2.2.1 r2.1 syms' r2.2.2
      else sbLoop g depth fuel queue visited syms' conns

/-- `CodeGraph::search_graph`: file-path match first, else exact/prefix symbol
match with a depth-bounded BFS; hard caps of 10 seeds / 50 symbols /
100 connections. -/
def search_graph (g : CodeGraph) (query : String) (depth : Nat) : GraphSearchResult :=
  let query_lower := strLower query
  let file_matches :=
    (g.file_index.filter (fun kv =>
      g.is_live kv.2 &&
        (strContainsSub (strLower kv.1) query_lower ||
          strContainsSub (strLower (fileName kv.1)) query_lower))).take 10
  if !file_matches.isEmpty then
    let r := fbFiles g file_matches [] [] []
    let conns :=
      if depth > 0 then fbConns g r.2.1 r.2.1 []
      else []
    { match_type := "file", matched_files := r.1, symbols := r.2.2
      connections := conns
      truncated := r.2.2.length ≥ 50 || conns.length ≥ 100 }
  else
    let symbol_matches :=
      (((g.symbol_index.filter (fun kv =>
          strLower kv.1 = query_lower || strStartsWith (strLower kv.1) query_lower)).flatMap
        (fun kv => kv.2)).filter (fun idx => g.is_live idx)).take 10
    if symbol_matches.isEmpty then
      { GraphSearchResult.default with match_type := "none" }
    else
      let queue := symbol_matches.map (fun idx => (idx, 0))
      let r := sbLoop g depth (g.nodes.length + 11) queue symbol_matches [] []
      { match_type := "symbol", matched_files := [], symbols := r.1
        connections := r.2
        truncated := r.1.length ≥ 50 || r.2.length ≥ 100 }

end CodeGraph

/-! ## MCP JSON-RPC dispatcher (`src/mcp/server.rs`, `src/mcp/types.rs`) -/

/-- `serde_json::Value`. -/
inductive Json where
  | null
  | bool (b : Bool)
  | num (n : Int)
  | str (s : String)
  | arr (l : List Json)
  | obj (l : List (String × Json))

/-- `JsonRpcRequest` from `src/mcp/types.rs` (`params` defaults to `Null`). -/
structure JsonRpcRequest where
  jsonrpc : String
  id : Option Json
  method : String
  params : Json

/-- `JsonRpcError` from `src/mcp/types.rs`. -/
structure JsonRpcError where
  code : Int
  message : String
  data : Option Json

/-- `JsonRpcResponse` from `src/mcp/types.rs`. -/
structure JsonRpcResponse where
  jsonrpc : String
  id : Option Json
  result : Option Json
  error : Option JsonRpcError

/-- `JsonRpcResponse::success`. -/
def JsonRpcResponse.success (id : Option Json) (result : Json) : JsonRpcResponse :=
  { jsonrpc := "2.0", id := id, result := some result, error := none }

/-- `JsonRpcResponse::error`. -/
def JsonRpcResponse.mkError (id : Option Json) (code : Int) (message : String) : JsonRpcResponse :=
  { jsonrpc := "2.0", id := id, result := none
    error := some { code := code, message := message, data := none } }

/-- Field lookup in a JSON object. -/
def Json.field : Json → String → Option Json
  | .obj l, k => lookupA l k
  | _, _ => none

/-- `serde_json::from_value::<ToolsCallParams>`: requires an object with a
string `name`; `arguments` defaults to `Null`. -/
def parseToolsCallParams (j : Json) : Option (String × Json) :=
  match j with
  | .obj l =>
    match lookupA l "name" with
    | some (.str name) => some (name, (lookupA l "arguments").getD .null)
    | _ => none
  | _ => none

/-- `handle_request` from `src/mcp/server.rs`.  Environment-dependent pieces
are passed in as parameters: `version` (`CARGO_PKG_VERSION`), `toolsList`
(the serialized `tools::list_tools()` output), `callTool` (the serialized
result of `tools::call_tool` on the shared graph), and `lockOk` (whether
`graph.read()` succeeds, i.e. the lock is not poisoned). -/
def handle_request (version : String) (toolsList : Json) (callTool : String → Json → Json)
    (lockOk : Bool) (request : JsonRpcRequest) : Option JsonRpcResponse :=
  let id := request.id
  if request.method = "initialize" then
    some (JsonRpcResponse.success id (Json.obj
      [("protocolVersion", .str "2024-11-05"),
       ("capabilities", .obj [("tools", .obj [])]),
       ("serverInfo", .obj [("name", .str "anchor"), ("version", .str version)])]))
  else if request.method = "notifications/initialized" then
    none
  else if request.method = "tools/list" then
    some (JsonRpcResponse.success id (Json.obj [("tools", toolsList)]))
  else if request.method = "tools/call" then
    match parseToolsCallParams request.params with
    | none => some (JsonRpcResponse.mkError id (-32602) "Invalid params")
    | some (name, arguments) =>
      if lockOk then some (JsonRpcResponse.success id (callTool name arguments))
      else some (JsonRpcResponse.mkError id (-32603) "Graph lock error")
  else if request.method = "ping" then
    some (JsonRpcResponse.success id (Json.obj []))
  else
    some (JsonRpcResponse.mkError id (-32601) ("Method not found: " ++ request.method))

/-! ## Association-list lemmas -/

theorem lookupA_insertA_self {α β : Type} [DecidableEq α] (l : List (α × β)) (k : α) (v : β) :
    lookupA (insertA l k v) k = some v := by
  induction l with
  | nil => simp [insertA, lookupA]
  | cons kv rest ih =>
    obtain ⟨k', v'⟩ := kv
    by_cases h : k' = k
    · simp [insertA, lookupA, h]
    · simp [insertA, lookupA, h, ih]

theorem lookupA_removeA_self {α β : Type} [DecidableEq α] (l : List (α × β)) (k : α) :
    lookupA (removeA l k) k = none := by
  induction l with
  | nil => simp [removeA, lookupA]
  | cons kv rest ih =>
    obtain ⟨k', v'⟩ := kv
    by_cases h : k' = k
    · simpa [removeA, List.filter_cons, h] using ih
    · simpa [removeA, List.filter_cons, h, lookupA] using ih

theorem lookupA_append_right {α β : Type} [DecidableEq α] (l : List (α × β)) (k : α) (v : β)
    (h : lookupA l k = none) : lookupA (l ++ [(k, v)]) k = some v := by
  induction l with
  | nil => simp [lookupA]
  | cons kv rest ih =>
    obtain ⟨k', v'⟩ := kv
    rw [List.cons_append]
    by_cases hk : k' = k
    · rw [show lookupA ((k', v') :: rest) k = some v' from by simp [lookupA, hk]] at h
      cases h
    · have h' : lookupA rest k = none := by
        simpa [lookupA, hk] using h
      simpa [lookupA, hk] using ih h'

/-! ## Claim C10 -/

/-- C10: `remove_file` on a path absent from `file_index` is a no-op — the
node store, edge store and all three indices are unchanged, hence every query
(`search`, `dependents`, `dependencies`, `symbols_in_file`, `find_qualified`,
`stats`) returns the same results before and after the call. -/
theorem remove_file_absent_noop (g : CodeGraph) (p : String)
    (h : lookupA g.file_index p = none) :
    g.remove_file p = g ∧
    (∀ q limit, (g.remove_file p).search q limit = g.search q limit) ∧
    (∀ nm, (g.remove_file p).dependents nm = g.dependents nm) ∧
    (∀ nm, (g.remove_file p).dependencies nm = g.dependencies nm) ∧
    (∀ q, (g.remove_file p).symbols_in_file q = g.symbols_in_file q) ∧
    (∀ f nm, (g.remove_file p).find_qualified f nm = g.find_qualified f nm) ∧
    (g.remove_file p).stats = g.stats := by
  have heq : g.remove_file p = g := by
    unfold CodeGraph.remove_file
    rw [h]
  exact ⟨heq, fun _ _ => by rw [heq], fun _ => by rw [heq], fun _ => by rw [heq],
    fun _ => by rw [heq], fun _ _ => by rw [heq], by rw [heq]⟩

/-- Witness for C10 at a concrete input: the empty graph has no entry for
`"a.rs"`, and removing that path leaves the graph unchanged. -/
theorem remove_file_absent_noop_witness :
    lookupA CodeGraph.empty.file_index "a.rs" = none ∧
    CodeGraph.empty.remove_file "a.rs" = CodeGraph.empty :=
  ⟨by decide, (remove_file_absent_noop CodeGraph.empty "a.rs" (by decide)).1⟩

/-! ## Claim C4 -/

/-- Concrete graph for the C4 counterexample: one file, then `add_symbol`
called twice with the same `(file_path, name)` key `("a.rs", "x")`, first
with snippet `"v1"`, then with snippet `"v2"`. -/
def cexC4graph : CodeGraph :=
  ((((CodeGraph.empty.add_file "a.rs").1.add_symbol "x" .Function "a.rs" 1 1 "v1").1).add_symbol
    "x" .Function "a.rs" 5 5 "v2").1

/-- C4 counterexample: after a within-file collision, `find_qualified` returns
the node created by the **second** `add_symbol` call (snippet `"v2"`), not the
first one (snippet `"v1"`): `HashMap::insert` overwrites, so the claimed
first-writer-wins resolution does not hold. -/
theorem find_qualified_collision_returns_second :
    (cexC4graph.find_qualified "a.rs" "x").map (fun n => n.code_snippet) = some "v2" ∧
    ¬((cexC4graph.find_qualified "a.rs" "x").map (fun n => n.code_snippet) = some "v1") := by
  constructor
  · decide
  · decide

/-- C4 amended: when `add_symbol` is called twice with the same
`(file_path, name)` pair, the `qualified_index` entry keeps the
**last**-added node: `find_qualified` afterwards returns the node created by
the second call. -/
theorem find_qualified_collision_last_writer_wins
    (g : CodeGraph) (nm fp : String) (k1 k2 : NodeKind)
    (ls1 le1 ls2 le2 : Nat) (c1 c2 : String) :
    (((g.add_symbol nm k1 fp ls1 le1 c1).1.add_symbol nm k2 fp ls2 le2 c2).1.find_qualified
        fp nm) =
      some (NodeData.new_symbol nm k2 fp ls2 le2 c2) := by
  unfold CodeGraph.find_qualified
  rw [show ((g.add_symbol nm k1 fp ls1 le1 c1).1.add_symbol nm k2 fp ls2 le2 c2).1.qualified_index
      = insertA (g.add_symbol nm k1 fp ls1 le1 c1).1.qualified_index (fp, nm)
          (g.add_symbol nm k1 fp ls1 le1 c1).1.nodes.length from rfl]
  rw [lookupA_insertA_self]
  simp only [Option.bind_eq_bind, Option.some_bind]
  rw [show ((g.add_symbol nm k1 fp ls1 le1 c1).1.add_symbol nm k2 fp ls2 le2 c2).1.getNode?
      (g.add_symbol nm k1 fp ls1 le1 c1).1.nodes.length
      = ((g.add_symbol nm k1 fp ls1 le1 c1).1.nodes ++
          [NodeData.new_symbol nm k2 fp ls2 le2 c2])[(g.add_symbol nm k1 fp ls1 le1 c1).1.nodes.length]?
      from rfl]
  rw [List.getElem?_concat_length]
  rfl

/-! ## Claim C8 -/

/-- C8: the JSON-RPC dispatcher replies with error code `-32601` ("Method not
found") to every request whose method is none of `initialize`,
`notifications/initialized`, `tools/list`, `tools/call`, `ping`; and a
`notifications/initialized` request produces no response at all. -/
theorem handle_request_unknown_and_notification
    (version : String) (toolsList : Json) (callTool : String → Json → Json) (lockOk : Bool)
    (req : JsonRpcRequest)
    (h : req.method ∉ ["initialize", "notifications/initialized", "tools/list",
        "tools/call", "ping"]) :
    handle_request version toolsList callTool lockOk req =
      some (JsonRpcResponse.mkError req.id (-32601) ("Method not found: " ++ req.method)) ∧
    (∀ jr id params, handle_request version toolsList callTool lockOk
        { jsonrpc := jr, id := id, method := "notifications/initialized", params := params } =
      none) := by
  constructor
  · simp only [List.mem_cons, List.not_mem_nil, or_false, not_or] at h
    obtain ⟨h1, h2, h3, h4, h5⟩ := h
    simp [handle_request, h1, h2, h3, h4, h5]
  · intro jr id params
    simp [handle_request]

/-- Witness for C8 at a concrete input: the method `"prompts/list"` is not
among the five supported methods, and the dispatcher answers it with a
`-32601` error. -/
theorem handle_request_unknown_witness :
    ("prompts/list" : String) ∉ ["initialize", "notifications/initialized", "tools/list",
        "tools/call", "ping"] ∧
    handle_request "0.1.0" (Json.arr []) (fun _ _ => Json.null) true
        { jsonrpc := "2.0", id := none, method := "prompts/list", params := Json.null } =
      some (JsonRpcResponse.mkError none (-32601) "Method not found: prompts/list" ) :=
  ⟨by decide,
    (handle_request_unknown_and_notification "0.1.0" (Json.arr []) (fun _ _ => Json.null) true
      { jsonrpc := "2.0", id := none, method := "prompts/list", params := Json.null }
      (by decide)).1⟩

/-! ## Concrete graphs for counterexamples -/

/-- A single-file extraction: file `"a.rs"` defining one function `"f"`. -/
def cexExA : FileExtractions :=
  { file_path := "a.rs"
    symbols := [{ name := "f", kind := .Function, line_start := 1, line_end := 1
                  code_snippet := "fn f()", parent := none }]
    imports := []
    calls := [] }

/-- The graph ingested from `cexExA` alone. -/
def cexG1 : CodeGraph := CodeGraph.empty.build_from_extractions [cexExA]

/-- `cexG1` after the remove / re-add / re-ingest cycle of claim C1. -/
def cexG2 : CodeGraph :=
  (((cexG1.remove_file "a.rs").add_file "a.rs").1).build_from_extractions [cexExA]

/-- C1 counterexample: ingest `E = [a.rs defining f]`, snapshot `stats()`,
then `remove_file("a.rs")`, `add_file("a.rs")` and re-ingest the same `E`.
The stats record is **not** equal to the snapshot: `total_edges` was 1 and is
now 2, because the soft-deleted `Defines` edge of the removed nodes is still
counted by `edge_count()` and the re-ingest added a fresh one (the remaining
four fields do return to their snapshot values). -/
theorem stats_not_restored_after_readd_cycle :
    cexG1.stats.total_edges = 1 ∧ cexG2.stats.total_edges = 2 ∧
    ¬(cexG2.stats = cexG1.stats) := by
  refine ⟨by decide, by decide, by decide⟩

/-- C2 counterexample: after ingesting `cexExA` and removing `"a.rs"`, the
graph still counts the dangling `Defines` edge (`total_edges = 1`); `compact`
drops it (`total_edges = 0`), so `stats()` — one of the queries claim C2
requires to be identical — differs before and after compaction. -/
theorem compact_changes_stats :
    (cexG1.remove_file "a.rs").stats.total_edges = 1 ∧
    (cexG1.remove_file "a.rs").compact.stats.total_edges = 0 ∧
    ¬((cexG1.remove_file "a.rs").compact.stats = (cexG1.remove_file "a.rs").stats) := by
  refine ⟨by decide, by decide, by decide⟩

/-- Concrete graph for the C5 counterexample: symbols `"FOOX"` (added first)
and `"foo"` (added second), both live, in file `"m.rs"`. -/
def cexC5graph : CodeGraph :=
  (((CodeGraph.empty.add_file "m.rs").1.add_symbol "FOOX" .Function "m.rs" 1 1 "c1").1.add_symbol
    "foo" .Function "m.rs" 2 2 "c2").1

/-- C5 counterexample: the query `"FOO"` differs from the stored symbol
`"foo"` only in letter case, yet `search("FOO", 1)` returns `["FOOX"]`:
there is no case-insensitive exact tier — `"foo"` reaches the substring
phase where it scores 1 (prefix), tying with the genuine prefix match
`"FOOX"`, which sits earlier in the index iteration and wins the single
slot.  Under the claimed scoring (`exact = 0` for a case-insensitive match)
the result would have been `["foo"]`. -/
theorem search_case_fold_not_exact :
    (cexC5graph.search "FOO" 1).map (fun r => r.symbol) = ["FOOX"] := by
  decide

/-- Concrete graph for the C6 counterexample: one file `"a.rs"` with one live
non-`File` symbol `"f"` (the ingest of `cexExA`). -/
def cexC6graph : CodeGraph := cexG1

/-- C6 counterexample: on a graph with one live non-`File` symbol and
`limit = 3 > 0`, the empty-string query returns that symbol instead of the
claimed empty list — every name contains (and starts with) the empty
string, so the substring phase matches everything. -/
theorem search_empty_query_not_empty :
    (cexC6graph.search "" 3).map (fun r => r.symbol) = ["f"] := by
  decide

/-- Concrete graph for the C7 counterexample: eleven files
`m0.rs` … `m10.rs`, all of whose paths contain the query `"m"`, and no
symbols at all. -/
def cexC7graph : CodeGraph :=
  ((List.range 11).foldl (fun g i => (g.add_file ("m" ++ toString i ++ ".rs")).1)
    CodeGraph.empty)

/-- C7 counterexample: eleven live files match the query `"m"`, so the
10-seed cap is hit (`matched_files` has exactly 10 of the 11 matches), yet
`truncated` is `false`: `search_graph` only sets `truncated` from the symbol
and connection caps, never from the seed cap. -/
theorem search_graph_seed_cap_not_truncated :
    cexC7graph.file_index.length = 11 ∧
    (cexC7graph.search_graph "m" 0).matched_files.length = 10 ∧
    (cexC7graph.search_graph "m" 0).truncated = false := by
  refine ⟨by decide, by decide, by decide⟩

/-! ## Claim C7 (amended) -/

theorem fbFileStep_syms_le (g : CodeGraph) (e : Edge) (idxs : List Nat)
    (syms : List SymbolInfo) :
    (CodeGraph.fbFileStep g e idxs syms).2.length ≤ syms.length + 1 := by
  unfold CodeGraph.fbFileStep
  split
  · split
    · exact Nat.le_succ _
    · simp
  · exact Nat.le_succ _

theorem fbFileSymbols_length_le (g : CodeGraph) (es : List Edge) (idxs : List Nat)
    (syms : List SymbolInfo) (h : syms.length ≤ 50) :
    (CodeGraph.fbFileSymbols g es idxs syms).2.length ≤ 50 := by
  induction es generalizing idxs syms with
  | nil => simpa [CodeGraph.fbFileSymbols] using h
  | cons e rest ih =>
    simp only [CodeGraph.fbFileSymbols]
    split
    · exact h
    · next hlt =>
      exact ih _ _ (Nat.le_trans (fbFileStep_syms_le g e idxs syms)
        (Nat.succ_le_of_lt (Nat.lt_of_not_le hlt)))

theorem fbFiles_bounds (g : CodeGraph) (l : List (String × Nat)) (files : List String)
    (idxs : List Nat) (syms : List SymbolInfo) (hs : syms.length ≤ 50) :
    (CodeGraph.fbFiles g l files idxs syms).1.length ≤ files.length + l.length ∧
    (CodeGraph.fbFiles g l files idxs syms).2.2.length ≤ 50 := by
  induction l generalizing files idxs syms with
  | nil => exact ⟨by simp [CodeGraph.fbFiles], by simpa [CodeGraph.fbFiles] using hs⟩
  | cons kv rest ih =>
    obtain ⟨path, file_idx⟩ := kv
    simp only [CodeGraph.fbFiles]
    split
    · exact ⟨by simp, hs⟩
    · have h1 := fbFileSymbols_length_le g (g.outgoingEdges file_idx) idxs syms hs
      have h2 := ih (files ++ [path]) (CodeGraph.fbFileSymbols g (g.outgoingEdges file_idx)
        idxs syms).1 (CodeGraph.fbFileSymbols g (g.outgoingEdges file_idx) idxs syms).2 h1
      refine ⟨?_, h2.2⟩
      have h3 := h2.1
      simp only [List.length_append, List.length_cons, List.length_nil] at h3 ⊢
      omega

theorem fbConnStep_conns_le (g : CodeGraph) (nodeName : String) (outgoing : Bool) (e : Edge)
    (visited : List Nat) (conns : List ConnectionInfo) :
    (CodeGraph.fbConnStep g nodeName outgoing e visited conns).2.length ≤ conns.length + 1 := by
  unfold CodeGraph.fbConnStep
  split
  · split
    · exact Nat.le_succ _
    · split
      · exact Nat.le_succ _
      · simp
  · exact Nat.le_succ _

theorem fbConnEdges_length_le (g : CodeGraph) (nodeName : String) (outgoing : Bool)
    (es : List Edge) (visited : List Nat) (conns : List ConnectionInfo)
    (h : conns.length ≤ 100) :
    (CodeGraph.fbConnEdges g nodeName outgoing es visited conns).2.length ≤ 100 := by
  induction es generalizing visited conns with
  | nil => simpa [CodeGraph.fbConnEdges] using h
  | cons e rest ih =>
    simp only [CodeGraph.fbConnEdges]
    split
    · exact h
    · next hlt =>
      exact ih _ _ (Nat.le_trans (fbConnStep_conns_le g nodeName outgoing e visited conns)
        (Nat.succ_le_of_lt (Nat.lt_of_not_le hlt)))

theorem fbConns_length_le (g : CodeGraph) (l : List Nat) (visited : List Nat)
    (conns : List ConnectionInfo) (h : conns.length ≤ 100) :
    (CodeGraph.fbConns g l visited conns).length ≤ 100 := by
  induction l generalizing visited conns with
  | nil => simpa [CodeGraph.fbConns] using h
  | cons idx rest ih =>
    simp only [CodeGraph.fbConns]
    split
    · exact h
    · refine ih _ _ ?_
      refine fbConnEdges_length_le g _ false (g.incomingEdges idx) _ _ ?_
      exact fbConnEdges_length_le g _ true (g.outgoingEdges idx) visited conns h

theorem sbEdgeStep_conns_le (g : CodeGraph) (nodeName : String) (d : Nat) (outgoing : Bool)
    (e : Edge) (visited : List Nat) (queue : List (Nat × Nat)) (conns : List ConnectionInfo) :
    (CodeGraph.sbEdgeStep g nodeName d outgoing e visited queue conns).2.2.length ≤
      conns.length + 1 := by
  unfold CodeGraph.sbEdgeStep
  split
  · split
    · exact Nat.le_succ _
    · split
      · exact Nat.le_succ _
      · simp
  · exact Nat.le_succ _

theorem sbEdges_length_le (g : CodeGraph) (nodeName : String) (d : Nat) (outgoing : Bool)
    (es : List Edge) (visited : List Nat) (queue : List (Nat × Nat))
    (conns : List ConnectionInfo) (h : conns.length ≤ 100) :
    (CodeGraph.sbEdges g nodeName d outgoing es visited queue conns).2.2.length ≤ 100 := by
  induction es generalizing visited queue conns with
  | nil => simpa [CodeGraph.sbEdges] using h
  | cons e rest ih =>
    simp only [CodeGraph.sbEdges]
    split
    · exact h
    · next hlt =>
      exact ih _ _ _ (Nat.le_trans (sbEdgeStep_conns_le g nodeName d outgoing e visited queue conns)
        (Nat.succ_le_of_lt (Nat.lt_of_not_le hlt)))

theorem sbPushSym_length_le (g : CodeGraph) (idx : Nat) (syms : List SymbolInfo)
    (h : syms.length ≤ 50) : (CodeGraph.sbPushSym g idx syms).length ≤ 50 := by
  unfold CodeGraph.sbPushSym
  split
  · split
    · next hc =>
      have hlt : syms.length < 50 := by
        rcases Bool.and_eq_true _ _ |>.mp hc with ⟨_, h2⟩
        simpa using h2
      simp only [List.length_append, List.length_cons, List.length_nil]
      omega
    · exact h
  · exact h

theorem sbLoop_bounds (g : CodeGraph) (depth : Nat) (fuel : Nat) (queue : List (Nat × Nat))
    (visited : List Nat) (syms : List SymbolInfo) (conns : List ConnectionInfo)
    (hs : syms.length ≤ 50) (hcn : conns.length ≤ 100) :
    (CodeGraph.sbLoop g depth fuel queue visited syms conns).1.length ≤ 50 ∧
    (CodeGraph.sbLoop g depth fuel queue visited syms conns).2.length ≤ 100 := by
  induction fuel generalizing queue visited syms conns with
  | zero => exact ⟨by simpa [CodeGraph.sbLoop] using hs, by simpa [CodeGraph.sbLoop] using hcn⟩
  | succ fuel ih =>
    match queue with
    | [] => exact ⟨by simpa [CodeGraph.sbLoop] using hs, by simpa [CodeGraph.sbLoop] using hcn⟩
    | (idx, d) :: queue =>
      simp only [CodeGraph.sbLoop]
      split
      · exact ⟨hs, hcn⟩
      · have hps := sbPushSym_length_le g idx syms hs
        split
        · refine ih _ _ _ _ hps ?_
          refine sbEdges_length_le g _ d false (g.incomingEdges idx) _ _ _ ?_
          exact sbEdges_length_le g _ d true (g.outgoingEdges idx) visited queue conns hcn
        · exact ih _ _ _ _ hps hcn

/-- C7 amended: `search_graph` returns at most 10 matched files, at most 50
symbols and at most 100 connections for every query and depth, and
`truncated` is set exactly when the symbol count reaches 50 or the
connection count reaches 100 — the seed-match cap alone does **not** set
`truncated`. -/
theorem search_graph_limits (g : CodeGraph) (q : String) (depth : Nat) :
    (g.search_graph q depth).matched_files.length ≤ 10 ∧
    (g.search_graph q depth).symbols.length ≤ 50 ∧
    (g.search_graph q depth).connections.length ≤ 100 ∧
    (g.search_graph q depth).truncated =
      (decide (50 ≤ (g.search_graph q depth).symbols.length) ||
        decide (100 ≤ (g.search_graph q depth).connections.length)) := by
  simp only [CodeGraph.search_graph]
  split
  · -- file branch
    have hfmlen : ((g.file_index.filter (fun kv =>
        g.is_live kv.2 &&
          (strContainsSub (strLower kv.1) (strLower q) ||
            strContainsSub (strLower (fileName kv.1)) (strLower q)))).take 10).length ≤ 10 :=
      List.length_take_le 10 _
    have hb := fbFiles_bounds g ((g.file_index.filter (fun kv =>
        g.is_live kv.2 &&
          (strContainsSub (strLower kv.1) (strLower q) ||
            strContainsSub (strLower (fileName kv.1)) (strLower q)))).take 10) [] [] []
      (by simp)
    refine ⟨?_, ?_, ?_, ?_⟩
    · have := hb.1
      simp only [List.length_nil, Nat.zero_add] at this
      exact Nat.le_trans this hfmlen
    · exact hb.2
    · split
      · exact fbConns_length_le g _ _ [] (by simp)
      · simp
    · simp [ge_iff_le]
  · -- symbol / none branch
    split
    · simp [GraphSearchResult.default]
    · refine ⟨by simp, ?_, ?_, by simp [ge_iff_le]⟩
      · exact (sbLoop_bounds g depth (g.nodes.length + 11) _ _ _ _ (by simp) (by simp)).1
      · exact (sbLoop_bounds g depth (g.nodes.length + 11) _ _ _ _ (by simp) (by simp)).2

/-! ## String and sorting lemmas -/

theorem isPrefixOf_self {α : Type} [DecidableEq α] (l : List α) : l.isPrefixOf l = true := by
  induction l with
  | nil => rfl
  | cons a rest ih => simp [List.isPrefixOf, ih]

theorem strStartsWith_self (s : String) : strStartsWith s s = true :=
  isPrefixOf_self s.data

theorem strContainsSub_self (s : String) : strContainsSub s s = true := by
  unfold strContainsSub
  cases h : s.data with
  | nil => simp [h, List.tails, List.isPrefixOf]
  | cons a rest =>
    simp only [h, List.tails, List.any_cons, Bool.or_eq_true]
    exact Or.inl (by simp [isPrefixOf_self])

theorem strContainsSub_empty_needle (s : String) : strContainsSub s "" = true := by
  unfold strContainsSub
  rw [show ("" : String).data = [] from rfl]
  cases s.data with
  | nil => rfl
  | cons a rest => simp [List.tails, List.isPrefixOf]

theorem strLower_empty : strLower "" = "" := rfl

theorem insertByKey_mem (x a : Nat × Nat) (l : List (Nat × Nat)) :
    x ∈ CodeGraph.insertByKey a l ↔ x = a ∨ x ∈ l := by
  induction l with
  | nil => simp [CodeGraph.insertByKey]
  | cons b rest ih =>
    unfold CodeGraph.insertByKey
    split
    all_goals simp only [List.mem_cons, ih]
    all_goals tauto

theorem sortByKey_mem_aux (l acc : List (Nat × Nat)) (x : Nat × Nat) :
    x ∈ l.foldl (fun acc a => CodeGraph.insertByKey a acc) acc ↔ x ∈ acc ∨ x ∈ l := by
  induction l generalizing acc with
  | nil => simp
  | cons a rest ih =>
    simp only [List.foldl_cons, ih, insertByKey_mem, List.mem_cons]
    tauto

theorem sortByKey_mem (l : List (Nat × Nat)) (x : Nat × Nat) :
    x ∈ CodeGraph.sortByKey l ↔ x ∈ l := by
  unfold CodeGraph.sortByKey
  rw [sortByKey_mem_aux]
  simp

theorem insertByKey_length (a : Nat × Nat) (l : List (Nat × Nat)) :
    (CodeGraph.insertByKey a l).length = l.length + 1 := by
  induction l with
  | nil => rfl
  | cons b rest ih =>
    unfold CodeGraph.insertByKey
    split
    · simp [ih]
    · simp

theorem sortByKey_length_aux (l acc : List (Nat × Nat)) :
    (l.foldl (fun acc a => CodeGraph.insertByKey a acc) acc).length = acc.length + l.length := by
  induction l generalizing acc with
  | nil => rfl
  | cons a rest ih =>
    simp only [List.foldl_cons, ih, insertByKey_length, List.length_cons]
    omega

theorem sortByKey_length (l : List (Nat × Nat)) : (CodeGraph.sortByKey l).length = l.length := by
  unfold CodeGraph.sortByKey
  rw [sortByKey_length_aux]
  simp

/-- `build_search_result` succeeds exactly on valid, live, non-`File` handles,
and copies the node's identity fields into the result. -/
theorem build_search_result_isSome (g : CodeGraph) (i : Nat) (d : NodeData)
    (h : g.getNode? i = some d) (h2 : d.removed = false) (h3 : d.kind ≠ .File) :
    ∃ r, g.build_search_result i = some r ∧ r.symbol = d.name ∧ r.file = d.file_path ∧
      r.kind = d.kind := by
  unfold CodeGraph.build_search_result
  simp only [h]
  rw [if_neg (by simp [h2, h3])]
  exact ⟨_, rfl, rfl, rfl, rfl⟩

/-- Every element of the fuzzy pool is a live `symbol_index` entry. -/
theorem fuzzyScored_mem (g : CodeGraph) (query query_lower : String) (x : Nat × Nat)
    (hx : x ∈ CodeGraph.fuzzyScored g query query_lower) :
    ∃ kv ∈ g.symbol_index, x.2 ∈ kv.2 ∧
      ∃ node, g.getNode? x.2 = some node ∧ node.removed = false ∧
        x.1 = CodeGraph.fuzzyScore query query_lower node := by
  unfold CodeGraph.fuzzyScored at hx
  rw [List.mem_flatMap] at hx
  obtain ⟨kv, hkv, hxkv⟩ := hx
  rw [List.mem_filter] at hkv
  rw [List.mem_filterMap] at hxkv
  obtain ⟨i, hi, hfi⟩ := hxkv
  refine ⟨kv, hkv.1, ?_⟩
  cases hn : g.getNode? i with
  | none => simp [hn] at hfi
  | some node =>
    simp only [hn] at hfi
    by_cases hr : node.removed = true
    · rw [if_pos hr] at hfi; cases hfi
    · rw [if_neg hr] at hfi
      cases hfi
      exact ⟨hi, node, hn, Bool.not_eq_true _ |>.mp hr, rfl⟩

/-! ## Claim C6 (amended) -/

/-- C6 amended: on a graph whose `symbol_index` holds only non-`File` nodes
and contains at least one live entry, `search("", limit)` with `limit > 0`
returns a **non-empty** list: the empty query's lowercase form is contained
in (and a prefix of) every name, so the substring phase matches every live
symbol instead of returning the claimed empty list. -/
theorem search_empty_query_nonempty (g : CodeGraph) (limit : Nat)
    (hK : ∀ kv ∈ g.symbol_index, ∀ i ∈ kv.2, ∀ d, g.getNode? i = some d → d.kind ≠ .File)
    (hEx : ∃ kv ∈ g.symbol_index, ∃ i ∈ kv.2, ∃ d, g.getNode? i = some d ∧ d.removed = false)
    (hl : 0 < limit) :
    g.search "" limit ≠ [] := by
  have hall : ∀ x ∈ CodeGraph.sortByKey (CodeGraph.fuzzyScored g "" (strLower "")),
      (g.build_search_result x.2).isSome := by
    intro x hx
    rw [sortByKey_mem] at hx
    obtain ⟨kv, hkv, hxi, node, hn, hr, _⟩ := fuzzyScored_mem g "" (strLower "") x hx
    obtain ⟨r, hrr, _⟩ := build_search_result_isSome g x.2 node hn hr
      (hK kv hkv x.2 hxi node hn)
    simp [hrr]
  have hpool : CodeGraph.fuzzyScored g "" (strLower "") ≠ [] := by
    obtain ⟨kv, hkv, i, hi, d, hd, hlive⟩ := hEx
    intro hnil
    have hxmem : (CodeGraph.fuzzyScore "" (strLower "") d, i) ∈ CodeGraph.fuzzyScored g "" (strLower "") := by
      unfold CodeGraph.fuzzyScored
      rw [List.mem_flatMap]
      refine ⟨kv, ?_, ?_⟩
      · rw [List.mem_filter]
        exact ⟨hkv, by rw [strLower_empty]; exact strContainsSub_empty_needle _⟩
      · rw [List.mem_filterMap]
        exact ⟨i, hi, by simp [hd, hlive]⟩
    rw [hnil] at hxmem
    cases hxmem
  simp only [CodeGraph.search]
  split
  · -- substring phase
    intro hres
    rw [List.filterMap_eq_nil_iff] at hres
    have htake : (CodeGraph.sortByKey (CodeGraph.fuzzyScored g "" (strLower ""))).take limit ≠ [] := by
      have hlen : ((CodeGraph.sortByKey (CodeGraph.fuzzyScored g "" (strLower ""))).take limit).length ≠ 0 := by
        rw [List.length_take, sortByKey_length]
        have := List.length_pos.mpr hpool
        omega
      intro hnil
      rw [hnil] at hlen
      exact hlen rfl
    obtain ⟨y, hy⟩ := List.exists_mem_of_ne_nil _ htake
    have := hall y (List.take_subset _ _ hy)
    rw [hres y hy] at this
    cases this
  · -- an exact hit was returned
    next hne =>
    intro hres
    exact hne (by rw [hres]; rfl)

/-- Witness for C6 amended at a concrete input: `cexC6graph` (file `a.rs`
with live symbol `f`) satisfies the hypotheses and `search("", 3)` is
non-empty there. -/
theorem search_empty_query_nonempty_witness :
    (∀ kv ∈ cexC6graph.symbol_index, ∀ i ∈ kv.2, ∀ d, cexC6graph.getNode? i = some d →
      d.kind ≠ .File) ∧
    (∃ kv ∈ cexC6graph.symbol_index, ∃ i ∈ kv.2, ∃ d, cexC6graph.getNode? i = some d ∧
      d.removed = false) ∧
    cexC6graph.search "" 3 ≠ [] :=
  ⟨by decide, by decide,
    search_empty_query_nonempty cexC6graph 3 (by decide) (by decide) (by decide)⟩

/-! ## Claim C5 (amended) -/

/-- C5 amended: `search` is case-insensitive only in its substring phase.
The exact tier (`score 0`) requires byte-equal names; a stored symbol whose
name differs from the query only in letter case is collected by the
(case-insensitive) substring scan but scored `1` — the prefix tier — tying
with every other prefix match rather than ranking as an exact match.  With
`limit` at least the size of the candidate pool it is returned (with a
smaller `limit` it can be displaced by other prefix-tier matches, as the
counterexample shows). -/
theorem search_case_fold_prefix_tier (g : CodeGraph) (q : String) (n : NodeData)
    (kv : String × List Nat) (i limit : Nat)
    (hne : n.name ≠ q) (hlow : strLower n.name = strLower q)
    (hnoexact : lookupA g.symbol_index q = none)
    (hkv : kv ∈ g.symbol_index) (hkvname : kv.1 = n.name) (hi : i ∈ kv.2)
    (hnode : g.getNode? i = some n) (hlive : n.removed = false) (hkind : n.kind ≠ .File)
    (hlimit : (CodeGraph.fuzzyScored g q (strLower q)).length ≤ limit) :
    CodeGraph.fuzzyScore q (strLower q) n = 1 ∧
    ∃ r ∈ g.search q limit, r.symbol = n.name := by
  have hscore : CodeGraph.fuzzyScore q (strLower q) n = 1 := by
    unfold CodeGraph.fuzzyScore
    rw [if_neg hne, if_pos (by rw [hlow]; exact strStartsWith_self _)]
  refine ⟨hscore, ?_⟩
  have hxmem : ((1 : Nat), i) ∈ CodeGraph.fuzzyScored g q (strLower q) := by
    unfold CodeGraph.fuzzyScored
    rw [List.mem_flatMap]
    refine ⟨kv, ?_, ?_⟩
    · rw [List.mem_filter]
      refine ⟨hkv, ?_⟩
      rw [hkvname, hlow]
      exact strContainsSub_self _
    · rw [List.mem_filterMap]
      refine ⟨i, hi, ?_⟩
      simp [hnode, hlive, hscore]
  obtain ⟨r, hrr, hrsym, _, _⟩ := build_search_result_isSome g i n hnode hlive hkind
  refine ⟨r, ?_, hrsym⟩
  simp only [CodeGraph.search]
  rw [hnoexact]
  simp only [List.isEmpty_nil, if_true]
  rw [List.mem_filterMap]
  refine ⟨(1, i), ?_, hrr⟩
  rw [List.take_of_length_le (by rw [sortByKey_length]; exact hlimit), sortByKey_mem]
  exact hxmem

/-! ## `remove_file` infrastructure -/

/-- The payload signature untouched by soft deletion. -/
def nodeSig (d : NodeData) : String × String × NodeKind :=
  (d.name, d.file_path, d.kind)

theorem is_live_iff (g : CodeGraph) (i : Nat) :
    g.is_live i = true ↔ ∃ d, g.getNode? i = some d ∧ d.removed = false := by
  unfold CodeGraph.is_live
  cases h : g.getNode? i with
  | none => simp
  | some d => simp

theorem setRemoved_getElem?_ne (ns : List NodeData) (i j : Nat) (b : Bool) (h : i ≠ j) :
    (CodeGraph.setRemoved ns i b)[j]? = ns[j]? := by
  unfold CodeGraph.setRemoved
  cases hn : ns[i]? with
  | none => rfl
  | some d => simp [List.getElem?_set, h]

theorem getNode?_some_lt (g : CodeGraph) (i : Nat) (d : NodeData)
    (h : g.getNode? i = some d) : i < g.nodes.length := by
  by_contra hge
  rw [show g.getNode? i = g.nodes[i]? from rfl,
    List.getElem?_eq_none (Nat.le_of_not_lt hge)] at h
  cases h

theorem setRemoved_getElem?_self (ns : List NodeData) (i : Nat) (b : Bool) (d : NodeData)
    (h : ns[i]? = some d) :
    (CodeGraph.setRemoved ns i b)[i]? = some { d with removed := b } := by
  unfold CodeGraph.setRemoved
  rw [h]
  have hlt : i < ns.length := by
    by_contra hge
    rw [List.getElem?_eq_none (Nat.le_of_not_lt hge)] at h
    cases h
  simp [List.getElem?_set, hlt]

theorem setRemoved_length (ns : List NodeData) (i : Nat) (b : Bool) :
    (CodeGraph.setRemoved ns i b).length = ns.length := by
  unfold CodeGraph.setRemoved
  cases ns[i]? with
  | none => rfl
  | some d => simp

theorem setRemoved_getElem?_none (ns : List NodeData) (i : Nat) (b : Bool)
    (h : ns[i]? = none) : (CodeGraph.setRemoved ns i b)[i]? = none := by
  unfold CodeGraph.setRemoved
  simp only [h]

theorem removeChildNode_edges (g : CodeGraph) (c : Nat) :
    (g.removeChildNode c).edges = g.edges := by
  unfold CodeGraph.removeChildNode
  cases g.getNode? c <;> rfl

theorem removeChildNode_file_index (g : CodeGraph) (c : Nat) :
    (g.removeChildNode c).file_index = g.file_index := by
  unfold CodeGraph.removeChildNode
  cases g.getNode? c <;> rfl

theorem removeChildNode_nodes_length (g : CodeGraph) (c : Nat) :
    (g.removeChildNode c).nodes.length = g.nodes.length := by
  unfold CodeGraph.removeChildNode
  cases g.getNode? c with
  | none => rfl
  | some d => simp

theorem removeChildNode_getNode?_ne (g : CodeGraph) (c j : Nat) (h : c ≠ j) :
    (g.removeChildNode c).getNode? j = g.getNode? j := by
  unfold CodeGraph.removeChildNode
  cases hn : g.getNode? c with
  | none => rfl
  | some d =>
    show (g.nodes.set c { d with removed := true })[j]? = g.nodes[j]?
    simp [List.getElem?_set, h]

theorem removeChildNode_getNode?_self (g : CodeGraph) (c : Nat) (d : NodeData)
    (hd : g.getNode? c = some d) :
    (g.removeChildNode c).getNode? c = some { d with removed := true } := by
  have hlt : c < g.nodes.length := getNode?_some_lt g c d hd
  unfold CodeGraph.removeChildNode
  simp only [hd]
  show (g.nodes.set c { d with removed := true })[c]? = _
  simp [List.getElem?_set, hlt]

theorem removeChildNode_sig (g : CodeGraph) (c j : Nat) :
    ((g.removeChildNode c).getNode? j).map nodeSig = (g.getNode? j).map nodeSig := by
  by_cases h : c = j
  · subst h
    cases hn : g.getNode? c with
    | none =>
      unfold CodeGraph.removeChildNode
      simp [hn]
    | some d =>
      rw [removeChildNode_getNode?_self g c d hn]
      rfl
  · rw [removeChildNode_getNode?_ne g c j h]

theorem foldRC_edges (C : List Nat) (g : CodeGraph) :
    (C.foldl CodeGraph.removeChildNode g).edges = g.edges := by
  induction C generalizing g with
  | nil => rfl
  | cons c rest ih => rw [List.foldl_cons, ih, removeChildNode_edges]

theorem foldRC_file_index (C : List Nat) (g : CodeGraph) :
    (C.foldl CodeGraph.removeChildNode g).file_index = g.file_index := by
  induction C generalizing g with
  | nil => rfl
  | cons c rest ih => rw [List.foldl_cons, ih, removeChildNode_file_index]

theorem foldRC_nodes_length (C : List Nat) (g : CodeGraph) :
    (C.foldl CodeGraph.removeChildNode g).nodes.length = g.nodes.length := by
  induction C generalizing g with
  | nil => rfl
  | cons c rest ih => rw [List.foldl_cons, ih, removeChildNode_nodes_length]

theorem foldRC_getNode?_not_mem (C : List Nat) (g : CodeGraph) (j : Nat) (h : j ∉ C) :
    (C.foldl CodeGraph.removeChildNode g).getNode? j = g.getNode? j := by
  induction C generalizing g with
  | nil => rfl
  | cons c rest ih =>
    rw [List.foldl_cons, ih _ (fun hj => h (List.mem_cons_of_mem _ hj)),
      removeChildNode_getNode?_ne g c j (fun hc => h (hc ▸ List.mem_cons_self c rest))]

theorem foldRC_sig (C : List Nat) (g : CodeGraph) (j : Nat) :
    ((C.foldl CodeGraph.removeChildNode g).getNode? j).map nodeSig =
      (g.getNode? j).map nodeSig := by
  induction C generalizing g with
  | nil => rfl
  | cons c rest ih => rw [List.foldl_cons, ih, removeChildNode_sig]

theorem foldRC_stays_marked (C : List Nat) (g : CodeGraph) (j : Nat) (d : NodeData)
    (hd : g.getNode? j = some d) (hr : d.removed = true) :
    ∃ d', (C.foldl CodeGraph.removeChildNode g).getNode? j = some d' ∧ d'.removed = true := by
  induction C generalizing g d with
  | nil => exact ⟨d, hd, hr⟩
  | cons c rest ih =>
    rw [List.foldl_cons]
    by_cases hc : c = j
    · subst hc
      exact ih _ { d with removed := true } (removeChildNode_getNode?_self g c d hd) rfl
    · exact ih _ d (by rw [removeChildNode_getNode?_ne g c j hc]; exact hd) hr

theorem foldRC_marked (C : List Nat) (g : CodeGraph) (j : Nat) (d : NodeData)
    (hj : j ∈ C) (hd : g.getNode? j = some d) :
    ∃ d', (C.foldl CodeGraph.removeChildNode g).getNode? j = some d' ∧ d'.removed = true := by
  induction C generalizing g d with
  | nil => cases hj
  | cons c rest ih =>
    rw [List.foldl_cons]
    by_cases hc : c = j
    · subst hc
      exact foldRC_stays_marked rest _ c { d with removed := true }
        (removeChildNode_getNode?_self g c d hd) rfl
    · rcases List.mem_cons.mp hj with heq | hmem
      · exact absurd heq.symm hc
      · exact ih _ d hmem (by rw [removeChildNode_getNode?_ne g c j hc]; exact hd)

theorem purgeSymbolIndex_mem (si : List (String × List Nat)) (nm : String) (c : Nat) :
    ∀ kv' ∈ CodeGraph.purgeSymbolIndex si nm c, ∃ kv ∈ si, kv'.1 = kv.1 ∧ kv'.2 ⊆ kv.2 := by
  induction si with
  | nil => intro kv' h; cases h
  | cons kv rest ih =>
    obtain ⟨k, vs⟩ := kv
    intro kv' h
    simp only [CodeGraph.purgeSymbolIndex] at h
    by_cases hk : k = nm
    · rw [if_pos hk] at h
      by_cases he : (vs.filter (fun i => i ≠ c)).isEmpty = true
      · rw [if_pos he] at h
        exact ⟨kv', List.mem_cons_of_mem _ h, rfl, fun x hx => hx⟩
      · rw [if_neg he] at h
        rcases List.mem_cons.mp h with heq | hmem
        · subst heq
          exact ⟨(k, vs), List.mem_cons_self _ _, rfl,
            fun x hx => (List.mem_filter.mp hx).1⟩
        · exact ⟨kv', List.mem_cons_of_mem _ hmem, rfl, fun x hx => hx⟩
    · rw [if_neg hk] at h
      rcases List.mem_cons.mp h with heq | hmem
      · subst heq
        exact ⟨(k, vs), List.mem_cons_self _ _, rfl, fun x hx => hx⟩
      · obtain ⟨kv0, hkv0, h1, h2⟩ := ih kv' hmem
        exact ⟨kv0, List.mem_cons_of_mem _ hkv0, h1, h2⟩

theorem purgeSymbolIndex_keys (si : List (String × List Nat)) (nm : String) (c : Nat) :
    ((CodeGraph.purgeSymbolIndex si nm c).map Prod.fst).Sublist (si.map Prod.fst) := by
  induction si with
  | nil => simp [CodeGraph.purgeSymbolIndex]
  | cons kv rest ih =>
    obtain ⟨k, vs⟩ := kv
    simp only [CodeGraph.purgeSymbolIndex]
    by_cases hk : k = nm
    · rw [if_pos hk]
      by_cases he : (vs.filter (fun i => i ≠ c)).isEmpty = true
      · rw [if_pos he]
        exact List.Sublist.trans (List.Sublist.refl _) (List.sublist_cons_self _ _)
      · rw [if_neg he]
        simp only [List.map_cons]
        exact List.Sublist.cons₂ _ (List.Sublist.refl _)
    · rw [if_neg hk]
      simp only [List.map_cons]
      exact List.Sublist.cons₂ _ ih

theorem purgeSymbolIndex_no_c (si : List (String × List Nat)) (nm : String) (c : Nat)
    (hcons : ∀ kv ∈ si, c ∈ kv.2 → kv.1 = nm)
    (hnodup : (si.map Prod.fst).Nodup) :
    ∀ kv' ∈ CodeGraph.purgeSymbolIndex si nm c, c ∉ kv'.2 := by
  induction si with
  | nil => intro kv' h; cases h
  | cons kv rest ih =>
    obtain ⟨k, vs⟩ := kv
    intro kv' h
    simp only [CodeGraph.purgeSymbolIndex] at h
    simp only [List.map_cons, List.nodup_cons] at hnodup
    by_cases hk : k = nm
    · rw [if_pos hk] at h
      have hrest : kv' ∈ rest → c ∉ kv'.2 := by
        intro hmem hc
        have := hcons kv' (List.mem_cons_of_mem _ hmem) hc
        exact hnodup.1 (by
          rw [← hk] at this
          rw [← this]
          exact List.mem_map_of_mem Prod.fst hmem)
      by_cases he : (vs.filter (fun i => i ≠ c)).isEmpty = true
      · rw [if_pos he] at h
        exact hrest h
      · rw [if_neg he] at h
        rcases List.mem_cons.mp h with heq | hmem
        · subst heq
          intro hc
          simpa using (List.mem_filter.mp hc).2
        · exact hrest hmem
    · rw [if_neg hk] at h
      rcases List.mem_cons.mp h with heq | hmem
      · subst heq
        intro hc
        exact hk (hcons (k, vs) (List.mem_cons_self _ _) hc)
      · exact ih (fun kv0 hkv0 => hcons kv0 (List.mem_cons_of_mem _ hkv0)) hnodup.2 kv' hmem

theorem notin_purgeSymbolIndex (si : List (String × List Nat)) (nm : String) (c x : Nat)
    (h : ∀ kv ∈ si, x ∉ kv.2) :
    ∀ kv' ∈ CodeGraph.purgeSymbolIndex si nm c, x ∉ kv'.2 := by
  intro kv' hkv' hx
  obtain ⟨kv, hkv, _, hsub⟩ := purgeSymbolIndex_mem si nm c kv' hkv'
  exact h kv hkv (hsub hx)

/-- The per-entry facts claim C3 assumes of `symbol_index`: every handle is
live, carries the entry's key as its name, and is not a `File` node. -/
def symIndexOk (g : CodeGraph) : Prop :=
  ∀ kv ∈ g.symbol_index, ∀ i ∈ kv.2,
    g.is_live i = true ∧ (g.getNode? i).map NodeData.name = some kv.1 ∧
      ¬((g.getNode? i).map NodeData.kind = some NodeKind.File)

/-- The per-entry facts claim C3 assumes of `qualified_index`: every handle is
live, sits under the key `(its file_path, its name)`, and is not a `File`
node. -/
def qualIndexOk (g : CodeGraph) : Prop :=
  ∀ kv ∈ g.qualified_index,
    g.is_live kv.2 = true ∧ (g.getNode? kv.2).map NodeData.file_path = some kv.1.1 ∧
      (g.getNode? kv.2).map NodeData.name = some kv.1.2 ∧
      ¬((g.getNode? kv.2).map NodeData.kind = some NodeKind.File)

/-- Mid-fold relation between the original graph and the partially processed
one, `symbol_index` side. -/
def symRel (g0 g : CodeGraph) : Prop :=
  (∀ kv ∈ g.symbol_index, ∃ kv0 ∈ g0.symbol_index, kv.1 = kv0.1 ∧ kv.2 ⊆ kv0.2) ∧
  ((g.symbol_index.map Prod.fst).Nodup) ∧
  (∀ j, (g.getNode? j).map nodeSig = (g0.getNode? j).map nodeSig)

theorem symRel_refl (g0 : CodeGraph) (hN : (g0.symbol_index.map Prod.fst).Nodup) :
    symRel g0 g0 :=
  ⟨fun kv hkv => ⟨kv, hkv, rfl, fun _ hx => hx⟩, hN, fun _ => rfl⟩

theorem symRel_step (g0 g : CodeGraph) (c : Nat) (h : symRel g0 g) :
    symRel g0 (g.removeChildNode c) := by
  obtain ⟨h1, h2, h3⟩ := h
  refine ⟨?_, ?_, ?_⟩
  · intro kv hkv
    unfold CodeGraph.removeChildNode at hkv
    cases hn : g.getNode? c with
    | none => rw [hn] at hkv; exact h1 kv hkv
    | some nd =>
      rw [hn] at hkv
      obtain ⟨kvg, hkvg, he, hsub⟩ := purgeSymbolIndex_mem g.symbol_index nd.name c kv hkv
      obtain ⟨kv0, hkv0, he0, hsub0⟩ := h1 kvg hkvg
      exact ⟨kv0, hkv0, he.trans he0, hsub.trans hsub0⟩
  · unfold CodeGraph.removeChildNode
    cases hn : g.getNode? c with
    | none => exact h2
    | some nd => exact (purgeSymbolIndex_keys g.symbol_index nd.name c).nodup h2
  · intro j
    rw [removeChildNode_sig, h3]

theorem foldRC_symbol_notin_preserved (C : List Nat) (g : CodeGraph) (x : Nat)
    (h : ∀ kv ∈ g.symbol_index, x ∉ kv.2) :
    ∀ kv' ∈ (C.foldl CodeGraph.removeChildNode g).symbol_index, x ∉ kv'.2 := by
  induction C generalizing g with
  | nil => exact h
  | cons c rest ih =>
    rw [List.foldl_cons]
    refine ih _ ?_
    intro kv hkv
    unfold CodeGraph.removeChildNode at hkv
    cases hn : g.getNode? c with
    | none => rw [hn] at hkv; exact h kv hkv
    | some nd =>
      rw [hn] at hkv
      exact notin_purgeSymbolIndex g.symbol_index nd.name c x h kv hkv

theorem step_purges_child_symbol (g0 g : CodeGraph) (c : Nat) (hrel : symRel g0 g)
    (hS : symIndexOk g0) :
    ∀ kv' ∈ (g.removeChildNode c).symbol_index, c ∉ kv'.2 := by
  obtain ⟨h1, h2, h3⟩ := hrel
  have hgnode : ∀ kv ∈ g.symbol_index, c ∈ kv.2 → ∃ d0, g0.getNode? c = some d0 ∧
      d0.name = kv.1 := by
    intro kv hkv hc
    obtain ⟨kv0, hkv0, he, hsub⟩ := h1 kv hkv
    have hfacts := hS kv0 hkv0 c (hsub hc)
    rcases (is_live_iff g0 c).mp hfacts.1 with ⟨d0, hd0, _⟩
    refine ⟨d0, hd0, ?_⟩
    have := hfacts.2.1
    rw [hd0] at this
    simp only [Option.map_some'] at this
    rw [he]
    exact Option.some.inj this
  intro kv' hkv'
  unfold CodeGraph.removeChildNode at hkv'
  cases hn : g.getNode? c with
  | none =>
    rw [hn] at hkv'
    intro hc
    obtain ⟨d0, hd0, _⟩ := hgnode kv' hkv' hc
    have := h3 c
    rw [hn, hd0] at this
    cases this
  | some nd =>
    rw [hn] at hkv'
    refine purgeSymbolIndex_no_c g.symbol_index nd.name c ?_ h2 kv' hkv'
    intro kv hkv hc
    obtain ⟨d0, hd0, hname⟩ := hgnode kv hkv hc
    have := h3 c
    rw [hn, hd0] at this
    simp only [Option.map_some'] at this
    have : nd.name = d0.name := congrArg (fun p => p.1) (Option.some.inj this)
    rw [this, hname]

theorem foldRC_children_purged_symbol (g0 : CodeGraph) (hS : symIndexOk g0) :
    ∀ (C : List Nat) (g : CodeGraph), symRel g0 g → ∀ c ∈ C,
      ∀ kv' ∈ (C.foldl CodeGraph.removeChildNode g).symbol_index, c ∉ kv'.2 := by
  intro C
  induction C with
  | nil => intro g _ c hc; cases hc
  | cons c0 rest ih =>
    intro g hrel c hc kv' hkv'
    rw [List.foldl_cons] at hkv'
    rcases List.mem_cons.mp hc with heq | hmem
    · subst heq
      exact foldRC_symbol_notin_preserved rest _ c
        (step_purges_child_symbol g0 g c hrel hS) kv' hkv'
    · exact ih (g.removeChildNode c0) (symRel_step g0 g c0 hrel) c hmem kv' hkv'

/-- Mid-fold relation, `qualified_index` side. -/
def qualRel (g0 g : CodeGraph) : Prop :=
  (∀ kv ∈ g.qualified_index, kv ∈ g0.qualified_index) ∧
  (∀ j, (g.getNode? j).map nodeSig = (g0.getNode? j).map nodeSig)

theorem qualRel_refl (g0 : CodeGraph) : qualRel g0 g0 :=
  ⟨fun _ hkv => hkv, fun _ => rfl⟩

theorem qualRel_step (g0 g : CodeGraph) (c : Nat) (h : qualRel g0 g) :
    qualRel g0 (g.removeChildNode c) := by
  obtain ⟨h1, h2⟩ := h
  refine ⟨?_, fun j => by rw [removeChildNode_sig, h2]⟩
  intro kv hkv
  unfold CodeGraph.removeChildNode at hkv
  cases hn : g.getNode? c with
  | none => rw [hn] at hkv; exact h1 kv hkv
  | some nd =>
    rw [hn] at hkv
    exact h1 kv (List.mem_filter.mp hkv).1

theorem foldRC_qual_notin_preserved (C : List Nat) (g : CodeGraph) (x : Nat)
    (h : ∀ kv ∈ g.qualified_index, kv.2 ≠ x) :
    ∀ kv' ∈ (C.foldl CodeGraph.removeChildNode g).qualified_index, kv'.2 ≠ x := by
  induction C generalizing g with
  | nil => exact h
  | cons c rest ih =>
    rw [List.foldl_cons]
    refine ih _ ?_
    intro kv hkv
    unfold CodeGraph.removeChildNode at hkv
    cases hn : g.getNode? c with
    | none => rw [hn] at hkv; exact h kv hkv
    | some nd =>
      rw [hn] at hkv
      exact h kv (List.mem_filter.mp hkv).1

theorem step_purges_child_qual (g0 g : CodeGraph) (c : Nat) (hrel : qualRel g0 g)
    (hQ : qualIndexOk g0) :
    ∀ kv' ∈ (g.removeChildNode c).qualified_index, kv'.2 ≠ c := by
  obtain ⟨h1, h2⟩ := hrel
  have hgnode : ∀ kv ∈ g.qualified_index, kv.2 = c → ∃ d0, g0.getNode? c = some d0 ∧
      d0.file_path = kv.1.1 ∧ d0.name = kv.1.2 := by
    intro kv hkv hc
    have hfacts := hQ kv (h1 kv hkv)
    rcases (is_live_iff g0 kv.2).mp hfacts.1 with ⟨d0, hd0, _⟩
    rw [hc] at hd0
    refine ⟨d0, hd0, ?_, ?_⟩
    · have := hfacts.2.1
      rw [hc, hd0] at this
      simpa using this
    · have := hfacts.2.2.1
      rw [hc, hd0] at this
      simpa using this
  intro kv' hkv'
  unfold CodeGraph.removeChildNode at hkv'
  cases hn : g.getNode? c with
  | none =>
    rw [hn] at hkv'
    intro hc
    obtain ⟨d0, hd0, _, _⟩ := hgnode kv' hkv' hc
    have := h2 c
    rw [hn, hd0] at this
    cases this
  | some nd =>
    rw [hn] at hkv'
    intro hc
    have hmem := List.mem_filter.mp hkv'
    obtain ⟨d0, hd0, hfile, hname⟩ := hgnode kv' hmem.1 hc
    have hsig := h2 c
    rw [hn, hd0] at hsig
    simp only [Option.map_some'] at hsig
    have hsig' := Option.some.inj hsig
    have hnd_file : nd.file_path = d0.file_path := congrArg (fun p => p.2.1) hsig'
    have hnd_name : nd.name = d0.name := congrArg (fun p => p.1) hsig'
    have : kv'.1 = (nd.file_path, nd.name) := by
      rw [hnd_file, hnd_name, hfile, hname]
    rw [this] at hmem
    simpa using hmem.2

theorem foldRC_children_purged_qual (g0 : CodeGraph) (hQ : qualIndexOk g0) :
    ∀ (C : List Nat) (g : CodeGraph), qualRel g0 g → ∀ c ∈ C,
      ∀ kv' ∈ (C.foldl CodeGraph.removeChildNode g).qualified_index, kv'.2 ≠ c := by
  intro C
  induction C with
  | nil => intro g _ c hc; cases hc
  | cons c0 rest ih =>
    intro g hrel c hc kv' hkv'
    rw [List.foldl_cons] at hkv'
    rcases List.mem_cons.mp hc with heq | hmem
    · subst heq
      exact foldRC_qual_notin_preserved rest _ c
        (step_purges_child_qual g0 g c hrel hQ) kv' hkv'
    · exact ih (g.removeChildNode c0) (qualRel_step g0 g c0 hrel) c hmem kv' hkv'

theorem foldRC_symRel (g0 : CodeGraph) (C : List Nat) (g : CodeGraph) (h : symRel g0 g) :
    symRel g0 (C.foldl CodeGraph.removeChildNode g) := by
  induction C generalizing g with
  | nil => exact h
  | cons c rest ih => exact ih _ (symRel_step g0 g c h)

theorem foldRC_qualRel (g0 : CodeGraph) (C : List Nat) (g : CodeGraph) (h : qualRel g0 g) :
    qualRel g0 (C.foldl CodeGraph.removeChildNode g) := by
  induction C generalizing g with
  | nil => exact h
  | cons c rest ih => exact ih _ (qualRel_step g0 g c h)

theorem sig_some_of_some (g1 g : CodeGraph) (j : Nat) (d : NodeData)
    (hsig : ∀ i, (g1.getNode? i).map nodeSig = (g.getNode? i).map nodeSig)
    (hd : g.getNode? j = some d) :
    ∃ d1, g1.getNode? j = some d1 ∧ nodeSig d1 = nodeSig d := by
  have := hsig j
  rw [hd] at this
  cases h1 : g1.getNode? j with
  | none => rw [h1] at this; cases this
  | some d1 =>
    rw [h1] at this
    simp only [Option.map_some'] at this
    exact ⟨d1, rfl, Option.some.inj this⟩

/-! ## Claim C3 -/

/-- C3: for a path `p` present in `file_index` and a graph whose indices are
consistent (`symbol_index` / `qualified_index` hold only live non-`File`
handles filed under their node's own name and file, with no duplicate
`symbol_index` keys), `remove_file(p)` (1) marks the file node removed,
(2) marks every node reachable by one outgoing edge — in particular every
`Defines` or `Imports` edge — removed, (3) drops `p` from `file_index`, and
(4)–(5) leaves no handle to a removed node in `symbol_index` or
`qualified_index`. -/
theorem remove_file_soft_delete_invariants (g : CodeGraph) (p : String) (fi : Nat)
    (hp : lookupA g.file_index p = some fi)
    (hfi : (g.getNode? fi).map NodeData.kind = some NodeKind.File)
    (hS : symIndexOk g) (hQ : qualIndexOk g)
    (hN : (g.symbol_index.map Prod.fst).Nodup) :
    (∃ d', (g.remove_file p).getNode? fi = some d' ∧ d'.removed = true) ∧
    (∀ e ∈ g.edges, e.src = fi → e.kind = EdgeKind.Defines ∨ e.kind = EdgeKind.Imports →
      ∀ d, g.getNode? e.tgt = some d →
        ∃ d', (g.remove_file p).getNode? e.tgt = some d' ∧ d'.removed = true) ∧
    lookupA (g.remove_file p).file_index p = none ∧
    (∀ kv ∈ (g.remove_file p).symbol_index, ∀ i ∈ kv.2, (g.remove_file p).is_live i = true) ∧
    (∀ kv ∈ (g.remove_file p).qualified_index, (g.remove_file p).is_live kv.2 = true) := by
  obtain ⟨dfi, hdfi⟩ : ∃ d, g.getNode? fi = some d := by
    cases h : g.getNode? fi with
    | none => rw [h] at hfi; cases hfi
    | some d => exact ⟨d, rfl⟩
  have hrw : g.remove_file p =
      { (((g.outgoingEdges fi).map (fun e => e.tgt)).foldl CodeGraph.removeChildNode g) with
          nodes := CodeGraph.setRemoved
            ((((g.outgoingEdges fi).map (fun e => e.tgt)).foldl
              CodeGraph.removeChildNode g)).nodes fi true
          file_index := removeA
            ((((g.outgoingEdges fi).map (fun e => e.tgt)).foldl
              CodeGraph.removeChildNode g)).file_index p } := by
    unfold CodeGraph.remove_file
    simp only [hp]
  rw [hrw]
  set C := (g.outgoingEdges fi).map (fun e => e.tgt) with hC
  set g1 := C.foldl CodeGraph.removeChildNode g with hg1
  have hsig : ∀ j, (g1.getNode? j).map nodeSig = (g.getNode? j).map nodeSig :=
    fun j => foldRC_sig C g j
  have hmemC : ∀ e ∈ g.edges, e.src = fi → e.tgt ∈ C := by
    intro e he hsrc
    rw [hC]
    refine List.mem_map_of_mem _ ?_
    rw [CodeGraph.outgoingEdges, List.mem_reverse, List.mem_filter]
    exact ⟨he, by simp [hsrc]⟩
  refine ⟨?_, ?_, ?_, ?_, ?_⟩
  · -- (1) the file node is marked removed
    obtain ⟨d1, hd1, _⟩ := sig_some_of_some g1 g fi dfi hsig hdfi
    exact ⟨{ d1 with removed := true },
      setRemoved_getElem?_self g1.nodes fi true d1 hd1, rfl⟩
  · -- (2) every one-hop child is marked removed
    intro e he hsrc _ d hd
    obtain ⟨d', hd', hrem⟩ := foldRC_marked C g e.tgt d (hmemC e he hsrc) hd
    by_cases hef : e.tgt = fi
    · rw [hef] at hd' ⊢
      exact ⟨{ d' with removed := true },
        setRemoved_getElem?_self g1.nodes fi true d' hd', rfl⟩
    · refine ⟨d', ?_, hrem⟩
      show (CodeGraph.setRemoved g1.nodes fi true)[e.tgt]? = some d'
      rw [setRemoved_getElem?_ne g1.nodes fi e.tgt true (fun h => hef h.symm)]
      exact hd'
  · -- (3) p is gone from file_index
    exact lookupA_removeA_self g1.file_index p
  · -- (4) symbol_index holds no removed handle
    intro kv hkv i hi
    have hrel := foldRC_symRel g C g (symRel_refl g hN)
    obtain ⟨kv0, hkv0, _, hsub⟩ := hrel.1 kv hkv
    have hfacts := hS kv0 hkv0 i (hsub hi)
    have hiC : i ∉ C := by
      intro hiC
      exact foldRC_children_purged_symbol g hS C g (symRel_refl g hN) i hiC kv hkv hi
    have hifi : i ≠ fi := by
      intro heq
      apply hfacts.2.2
      rw [heq]
      exact hfi
    obtain ⟨d, hd, hlive⟩ := (is_live_iff g i).mp hfacts.1
    rw [is_live_iff]
    refine ⟨d, ?_, hlive⟩
    show (CodeGraph.setRemoved g1.nodes fi true)[i]? = some d
    rw [setRemoved_getElem?_ne g1.nodes fi i true (fun h => hifi h.symm)]
    show g1.getNode? i = some d
    rw [hg1, foldRC_getNode?_not_mem C g i hiC]
    exact hd
  · -- (5) qualified_index holds no removed handle
    intro kv hkv
    have hrel := foldRC_qualRel g C g (qualRel_refl g)
    have hkv0 := hrel.1 kv hkv
    have hfacts := hQ kv hkv0
    have hiC : kv.2 ∉ C := by
      intro hiC
      exact foldRC_children_purged_qual g hQ C g (qualRel_refl g) kv.2 hiC kv hkv rfl
    have hifi : kv.2 ≠ fi := by
      intro heq
      apply hfacts.2.2.2
      rw [heq]
      exact hfi
    obtain ⟨d, hd, hlive⟩ := (is_live_iff g kv.2).mp hfacts.1
    rw [is_live_iff]
    refine ⟨d, ?_, hlive⟩
    show (CodeGraph.setRemoved g1.nodes fi true)[kv.2]? = some d
    rw [setRemoved_getElem?_ne g1.nodes fi kv.2 true (fun h => hifi h.symm)]
    show g1.getNode? kv.2 = some d
    rw [hg1, foldRC_getNode?_not_mem C g kv.2 hiC]
    exact hd

/-- Witness for C3 at a concrete input: `cexG1` (file `a.rs` defining `f`)
satisfies every hypothesis with `fi = 0`, and after `remove_file("a.rs")`
the file node is removed and `symbol_index` holds only live handles. -/
theorem remove_file_soft_delete_invariants_witness :
    lookupA cexG1.file_index "a.rs" = some 0 ∧
    symIndexOk cexG1 ∧ qualIndexOk cexG1 ∧
    (∃ d', (cexG1.remove_file "a.rs").getNode? 0 = some d' ∧ d'.removed = true) ∧
    (∀ kv ∈ (cexG1.remove_file "a.rs").symbol_index, ∀ i ∈ kv.2,
      (cexG1.remove_file "a.rs").is_live i = true) := by
  have h := remove_file_soft_delete_invariants cexG1 "a.rs" 0 (by decide) (by decide)
    (by unfold symIndexOk; decide) (by unfold qualIndexOk; decide) (by decide)
  exact ⟨by decide, by unfold symIndexOk; decide, by unfold qualIndexOk; decide,
    h.1, h.2.2.2.1⟩

theorem lookupA_mem {α β : Type} [DecidableEq α] (l : List (α × β)) (k : α) (v : β)
    (h : lookupA l k = some v) : (k, v) ∈ l := by
  induction l with
  | nil => cases h
  | cons kv rest ih =>
    obtain ⟨k', v'⟩ := kv
    by_cases hk : k' = k
    · subst hk
      rw [show lookupA ((k', v') :: rest) k' = some v' from by simp [lookupA]] at h
      cases h
      exact List.mem_cons_self _ _
    · rw [show lookupA ((k', v') :: rest) k = lookupA rest k from by simp [lookupA, hk]] at h
      exact List.mem_cons_of_mem _ (ih h)

theorem remove_file_edges (g : CodeGraph) (p : String) :
    (g.remove_file p).edges = g.edges := by
  unfold CodeGraph.remove_file
  cases h : lookupA g.file_index p with
  | none => rfl
  | some fi =>
    simp only []
    rw [foldRC_edges]

theorem remove_file_nodes_length (g : CodeGraph) (p : String) :
    (g.remove_file p).nodes.length = g.nodes.length := by
  unfold CodeGraph.remove_file
  cases h : lookupA g.file_index p with
  | none => rfl
  | some fi =>
    show (CodeGraph.setRemoved (((g.outgoingEdges fi).map (fun e => e.tgt)).foldl
      CodeGraph.removeChildNode g).nodes fi true).length = g.nodes.length
    rw [setRemoved_length, foldRC_nodes_length]

theorem foldRC_live_back (C : List Nat) (g : CodeGraph) (i : Nat) (d : NodeData)
    (h : (C.foldl CodeGraph.removeChildNode g).getNode? i = some d)
    (hlive : d.removed = false) : g.getNode? i = some d := by
  induction C generalizing g with
  | nil => exact h
  | cons c rest ih =>
    rw [List.foldl_cons] at h
    have hstep := ih _ h
    by_cases hc : c = i
    · subst hc
      cases hn : g.getNode? c with
      | none =>
        have hid : g.removeChildNode c = g := by
          unfold CodeGraph.removeChildNode
          rw [hn]
        rw [hid, hn] at hstep
        exact hstep
      | some nd =>
        rw [removeChildNode_getNode?_self g c nd hn] at hstep
        cases hstep
        cases hlive
    · rw [removeChildNode_getNode?_ne g c i hc] at hstep
      exact hstep

theorem remove_file_live_back (g : CodeGraph) (p : String) (i : Nat) (d : NodeData)
    (h : (g.remove_file p).getNode? i = some d) (hlive : d.removed = false) :
    g.getNode? i = some d := by
  unfold CodeGraph.remove_file at h
  cases hl : lookupA g.file_index p with
  | none => rw [hl] at h; exact h
  | some fi =>
    simp only [hl] at h
    set g1 := ((g.outgoingEdges fi).map (fun e => e.tgt)).foldl CodeGraph.removeChildNode g
      with hg1
    have h' : (CodeGraph.setRemoved g1.nodes fi true)[i]? = some d := h
    by_cases hc : fi = i
    · subst hc
      cases hn : g1.nodes[fi]? with
      | none => rw [setRemoved_getElem?_none g1.nodes fi true hn] at h'; cases h'
      | some d1 =>
        rw [setRemoved_getElem?_self g1.nodes fi true d1 hn] at h'
        cases h'
        cases hlive
    · rw [setRemoved_getElem?_ne g1.nodes fi i true hc] at h'
      exact foldRC_live_back _ g i d h' hlive

/-- Inverse direction of `build_search_result`: a produced result comes from
a valid, live, non-`File` node whose identity fields it copies. -/
theorem build_search_result_some (g : CodeGraph) (i : Nat) (r : SearchResult)
    (h : g.build_search_result i = some r) :
    ∃ d, g.getNode? i = some d ∧ d.removed = false ∧ d.kind ≠ NodeKind.File ∧
      r.symbol = d.name ∧ r.file = d.file_path := by
  unfold CodeGraph.build_search_result at h
  cases hn : g.getNode? i with
  | none => rw [hn] at h; cases h
  | some node =>
    rw [hn] at h
    simp only [] at h
    by_cases hc : (node.kind = NodeKind.File ∨ node.removed = true)
    · rw [if_pos (by simpa using hc)] at h
      cases h
    · rw [if_neg (by simpa using hc)] at h
      push_neg at hc
      cases h
      exact ⟨node, rfl, by simpa using hc.2, hc.1, rfl, rfl⟩

/-- Every `search` result comes from a live non-`File` node of the graph. -/
theorem search_result_provenance (g : CodeGraph) (q : String) (limit : Nat) (r : SearchResult)
    (h : r ∈ g.search q limit) :
    ∃ i d, g.getNode? i = some d ∧ d.removed = false ∧ d.kind ≠ NodeKind.File ∧
      r.symbol = d.name ∧ r.file = d.file_path := by
  simp only [CodeGraph.search] at h
  split at h
  · rw [List.mem_filterMap] at h
    obtain ⟨si, _, hsi⟩ := h
    obtain ⟨d, hd⟩ := build_search_result_some g si.2 r hsi
    exact ⟨si.2, d, hd⟩
  · cases hl : lookupA g.symbol_index q with
    | none =>
      rw [hl] at h
      cases h
    | some indexes =>
      rw [hl] at h
      rw [List.mem_filterMap] at h
      obtain ⟨i, _, hi⟩ := h
      obtain ⟨d, hd⟩ := build_search_result_some g i r hi
      exact ⟨i, d, hd⟩

/-! ## Claim C9 -/

/-- C9: after `remove_file(p)` followed by `add_file(p)` with no re-ingest,
the `File` node at `p` is live again, but the file's former symbols stay
removed: `symbols_in_file(p)` is empty, `find_qualified(p, ·)` finds
nothing, no `search` result lives in file `p` — yet the edge store (and with
it every former `Defines` edge) is untouched.  Hypotheses: `p` is indexed at
`fi`, `qualified_index` is consistent, edge sources are valid handles, and
every live non-`File` node filed under `p` is an outgoing-edge target of the
file node (as ingest guarantees). -/
theorem remove_then_add_file_no_reingest (g : CodeGraph) (p : String) (fi : Nat)
    (hp : lookupA g.file_index p = some fi)
    (hQ : qualIndexOk g)
    (hEsrc : ∀ e ∈ g.edges, e.src < g.nodes.length)
    (hOwn : ∀ i d, g.getNode? i = some d → d.removed = false → d.kind ≠ NodeKind.File →
      d.file_path = p → ∃ e ∈ g.edges, e.src = fi ∧ e.tgt = i) :
    (∃ j, lookupA ((g.remove_file p).add_file p).1.file_index p = some j ∧
      ((g.remove_file p).add_file p).1.is_live j = true) ∧
    ((g.remove_file p).add_file p).1.symbols_in_file p = [] ∧
    (∀ nm, ((g.remove_file p).add_file p).1.find_qualified p nm = none) ∧
    (∀ q limit r, r ∈ ((g.remove_file p).add_file p).1.search q limit → r.file ≠ p) ∧
    ((g.remove_file p).add_file p).1.edges = g.edges := by
  have hrw : g.remove_file p =
      { (((g.outgoingEdges fi).map (fun e => e.tgt)).foldl CodeGraph.removeChildNode g) with
          nodes := CodeGraph.setRemoved
            ((((g.outgoingEdges fi).map (fun e => e.tgt)).foldl
              CodeGraph.removeChildNode g)).nodes fi true
          file_index := removeA
            ((((g.outgoingEdges fi).map (fun e => e.tgt)).foldl
              CodeGraph.removeChildNode g)).file_index p } := by
    unfold CodeGraph.remove_file
    simp only [hp]
  set C := (g.outgoingEdges fi).map (fun e => e.tgt) with hC
  set g1 := C.foldl CodeGraph.removeChildNode g with hg1
  set gr := g.remove_file p with hgr
  have hmemC : ∀ e ∈ g.edges, e.src = fi → e.tgt ∈ C := by
    intro e he hsrc
    rw [hC]
    refine List.mem_map_of_mem _ ?_
    rw [CodeGraph.outgoingEdges, List.mem_reverse, List.mem_filter]
    exact ⟨he, by simp [hsrc]⟩
  have hgone : lookupA gr.file_index p = none := by
    rw [hrw]
    exact lookupA_removeA_self g1.file_index p
  have hadd : gr.add_file p =
      ({ gr with
          nodes := gr.nodes ++ [NodeData.new_file p]
          file_index := gr.file_index ++ [(p, gr.nodes.length)] }, gr.nodes.length) := by
    unfold CodeGraph.add_file
    simp only [hgone]
  set N := gr.nodes.length with hNdef
  have hN : N = g.nodes.length := by
    rw [hNdef, hgr, remove_file_nodes_length]
  set g2 := (gr.add_file p).1 with hg2
  have hg2eq : g2 = { gr with
      nodes := gr.nodes ++ [NodeData.new_file p]
      file_index := gr.file_index ++ [(p, N)] } := by
    rw [hg2, hadd]
  have hlookup2 : lookupA g2.file_index p = some N := by
    rw [hg2eq]
    exact lookupA_append_right gr.file_index p N hgone
  have hnodeN : g2.getNode? N = some (NodeData.new_file p) := by
    rw [hg2eq]
    show (gr.nodes ++ [NodeData.new_file p])[N]? = _
    rw [hNdef]
    exact List.getElem?_concat_length _ _
  have hedges2 : g2.edges = g.edges := by
    rw [hg2eq]
    show gr.edges = g.edges
    rw [hgr, remove_file_edges]
  have hqual2 : g2.qualified_index = g1.qualified_index := by
    rw [hg2eq]
    show gr.qualified_index = g1.qualified_index
    rw [hrw]
  refine ⟨?_, ?_, ?_, ?_, hedges2⟩
  · -- (a) the File node is live again
    refine ⟨N, hlookup2, ?_⟩
    rw [is_live_iff]
    exact ⟨NodeData.new_file p, hnodeN, rfl⟩
  · -- (b) symbols_in_file is empty: the fresh file node has no edges
    unfold CodeGraph.symbols_in_file
    rw [hlookup2]
    simp only []
    rw [if_pos (by rw [is_live_iff]; exact ⟨NodeData.new_file p, hnodeN, rfl⟩)]
    have : g2.outgoingEdges N = [] := by
      unfold CodeGraph.outgoingEdges
      rw [hedges2]
      have : g.edges.filter (fun e => e.src = N) = [] := by
        rw [List.filter_eq_nil_iff]
        intro e he
        have := hEsrc e he
        simp only [decide_eq_true_eq]
        omega
      rw [this]
      rfl
    rw [this]
    rfl
  · -- (c) find_qualified(p, ·) finds nothing
    intro nm
    unfold CodeGraph.find_qualified
    cases hl : lookupA g2.qualified_index (p, nm) with
    | none => rfl
    | some j =>
      exfalso
      have hmem : ((p, nm), j) ∈ g1.qualified_index := by
        rw [← hqual2]
        exact lookupA_mem _ _ _ hl
      have hrel := foldRC_qualRel g C g (qualRel_refl g)
      have hfacts := hQ _ (hrel.1 _ hmem)
      obtain ⟨d, hd, hlive⟩ := (is_live_iff g j).mp hfacts.1
      have hfile : d.file_path = p := by
        have := hfacts.2.1
        rw [hd] at this
        simpa using this
      have hkind : d.kind ≠ NodeKind.File := by
        intro hk
        apply hfacts.2.2.2
        rw [hd, ← hk]
        rfl
      obtain ⟨e, he, hesrc, hetgt⟩ := hOwn j d hd hlive hkind hfile
      exact foldRC_children_purged_qual g hQ C g (qualRel_refl g) j
        (hetgt ▸ hmemC e he hesrc) _ hmem rfl
  · -- (d) no search result lives in file p
    intro q limit r hr hfile
    obtain ⟨i, d, hd, hlive, hkind, _, hrfile⟩ := search_result_provenance g2 q limit r hr
    rw [hfile] at hrfile
    have hfp : d.file_path = p := hrfile.symm
    by_cases hiN : i = N
    · subst hiN
      rw [hnodeN] at hd
      cases hd
      exact hkind rfl
    · have hd' : gr.getNode? i = some d := by
        have : g2.getNode? i = (gr.nodes ++ [NodeData.new_file p])[i]? := by rw [hg2eq]; rfl
        rw [this] at hd
        have hlt : i < gr.nodes.length := by
          have hlen : i < (gr.nodes ++ [NodeData.new_file p]).length := by
            by_contra hge
            rw [List.getElem?_eq_none (Nat.le_of_not_lt hge)] at hd
            cases hd
          simp only [List.length_append, List.length_cons, List.length_nil] at hlen
          rw [hNdef] at hiN
          omega
        rw [List.getElem?_append, if_pos hlt] at hd
        exact hd
      have hdg : g.getNode? i = some d := remove_file_live_back g p i d hd' hlive
      obtain ⟨e, he, hesrc, hetgt⟩ := hOwn i d hdg hlive hkind hfp
      obtain ⟨d'', hd'', hrem⟩ := foldRC_marked C g i d (hetgt ▸ hmemC e he hesrc) hdg
      -- i is marked removed in g1, hence in gr, contradicting liveness
      have : gr.getNode? i = some d'' ∨ gr.getNode? i = some { d'' with removed := true } := by
        rw [hrw]
        show (CodeGraph.setRemoved g1.nodes fi true)[i]? = some d'' ∨
          (CodeGraph.setRemoved g1.nodes fi true)[i]? = some { d'' with removed := true }
        by_cases hif : fi = i
        · subst hif
          exact Or.inr (setRemoved_getElem?_self g1.nodes fi true d'' hd'')
        · rw [setRemoved_getElem?_ne g1.nodes fi i true hif]
          exact Or.inl hd''
      rcases this with hcase | hcase
      · rw [hd'] at hcase
        cases hcase
        rw [hrem] at hlive
        cases hlive
      · rw [hd'] at hcase
        cases hcase
        cases hlive

/-- Witness for C9 at a concrete input: `cexG1` with `p = "a.rs"`, `fi = 0`.
After remove + re-add, `symbols_in_file` is empty and the edges are
unchanged. -/
theorem remove_then_add_file_no_reingest_witness :
    lookupA cexG1.file_index "a.rs" = some 0 ∧
    ((cexG1.remove_file "a.rs").add_file "a.rs").1.symbols_in_file "a.rs" = [] ∧
    ((cexG1.remove_file "a.rs").add_file "a.rs").1.edges = cexG1.edges := by
  have h := remove_then_add_file_no_reingest cexG1 "a.rs" 0 (by decide)
    (by unfold qualIndexOk; decide) (by decide)
    (by
      intro i d hd hlive hkind hfile
      have hlt : i < cexG1.nodes.length := getNode?_some_lt cexG1 i d hd
      have h2 : cexG1.nodes.length = 2 := by decide
      rw [h2] at hlt
      interval_cases i
      · rw [show cexG1.getNode? 0 = some (NodeData.new_file "a.rs") from by decide] at hd
        cases hd
        exact absurd rfl hkind
      · exact ⟨⟨0, 1, EdgeKind.Defines⟩, by decide, rfl, rfl⟩)
  exact ⟨by decide, h.2.1, h.2.2.2.2⟩

/-! ## Ingest infrastructure (claim C1) -/

/-- Phases 2 and 3 of `build_from_extractions` only add edges; the node
store and the three indices are those produced by phase 1. -/
def sameNonEdges (g h : CodeGraph) : Prop :=
  g.nodes = h.nodes ∧ g.file_index = h.file_index ∧
    g.symbol_index = h.symbol_index ∧ g.qualified_index = h.qualified_index

theorem sameNonEdges_refl (g : CodeGraph) : sameNonEdges g g := ⟨rfl, rfl, rfl, rfl⟩

theorem sameNonEdges_trans {g h k : CodeGraph} (h1 : sameNonEdges g h)
    (h2 : sameNonEdges h k) : sameNonEdges g k :=
  ⟨h1.1.trans h2.1, h1.2.1.trans h2.2.1, h1.2.2.1.trans h2.2.2.1, h1.2.2.2.trans h2.2.2.2⟩

theorem add_edge_sne (g : CodeGraph) (s t : Nat) (k : EdgeKind) :
    sameNonEdges (g.add_edge s t k) g := ⟨rfl, rfl, rfl, rfl⟩

theorem phase2Call_sne (fp : String) (g : CodeGraph) (c : ExtractedCall) :
    sameNonEdges (CodeGraph.phase2Call fp g c) g := by
  simp only [CodeGraph.phase2Call]
  split
  · exact sameNonEdges_refl g
  · split
    · exact sameNonEdges_refl g
    · split
      · exact sameNonEdges_refl g
      · exact add_edge_sne g _ _ .Calls

theorem phase3Symbol_sne (fp : String) (g : CodeGraph) (s : ExtractedSymbol) :
    sameNonEdges (CodeGraph.phase3Symbol fp g s) g := by
  simp only [CodeGraph.phase3Symbol]
  split
  · exact sameNonEdges_refl g
  · split
    · exact add_edge_sne g _ _ .Contains
    · exact sameNonEdges_refl g

theorem foldl_sne {α : Type} (f : CodeGraph → α → CodeGraph)
    (hf : ∀ g a, sameNonEdges (f g a) g) (l : List α) (g : CodeGraph) :
    sameNonEdges (l.foldl f g) g := by
  induction l generalizing g with
  | nil => exact sameNonEdges_refl g
  | cons a rest ih => exact sameNonEdges_trans (ih (f g a)) (hf g a)

theorem build_sne (g : CodeGraph) (exs : List FileExtractions) :
    sameNonEdges (g.build_from_extractions exs) (exs.foldl CodeGraph.phase1File g) := by
  refine sameNonEdges_trans
    (h := exs.foldl (fun h ex => ex.calls.foldl (CodeGraph.phase2Call ex.file_path) h)
      (exs.foldl CodeGraph.phase1File g)) ?_ ?_
  · exact foldl_sne _ (fun h ex => foldl_sne _ (fun h' s => phase3Symbol_sne ex.file_path h' s)
      ex.symbols h) exs _
  · exact foldl_sne _ (fun h ex => foldl_sne _ (fun h' c => phase2Call_sne ex.file_path h' c)
      ex.calls h) exs _

theorem add_edge_edges_mono (g : CodeGraph) (s t : Nat) (k : EdgeKind) (e : Edge)
    (h : e ∈ g.edges) : e ∈ (g.add_edge s t k).edges :=
  List.mem_append_left _ h

theorem phase2Call_edges_mono (fp : String) (g : CodeGraph) (c : ExtractedCall) (e : Edge)
    (h : e ∈ g.edges) : e ∈ (CodeGraph.phase2Call fp g c).edges := by
  simp only [CodeGraph.phase2Call]
  split
  · exact h
  · split
    · exact h
    · split
      · exact h
      · exact add_edge_edges_mono g _ _ _ e h

theorem phase3Symbol_edges_mono (fp : String) (g : CodeGraph) (s : ExtractedSymbol) (e : Edge)
    (h : e ∈ g.edges) : e ∈ (CodeGraph.phase3Symbol fp g s).edges := by
  simp only [CodeGraph.phase3Symbol]
  split
  · exact h
  · split
    · exact add_edge_edges_mono g _ _ _ e h
    · exact h

theorem foldl_edges_mono {α : Type} (f : CodeGraph → α → CodeGraph)
    (hf : ∀ g a e, e ∈ g.edges → e ∈ (f g a).edges) (l : List α) (g : CodeGraph) (e : Edge)
    (h : e ∈ g.edges) : e ∈ (l.foldl f g).edges := by
  induction l generalizing g with
  | nil => exact h
  | cons a rest ih => exact ih (f g a) (hf g a e h)

theorem build_edges_mono (g : CodeGraph) (exs : List FileExtractions) (e : Edge)
    (h : e ∈ (exs.foldl CodeGraph.phase1File g).edges) :
    e ∈ (g.build_from_extractions exs).edges := by
  unfold CodeGraph.build_from_extractions
  refine foldl_edges_mono _ (fun h' ex e' he' => foldl_edges_mono _
    (fun h'' s e'' he'' => phase3Symbol_edges_mono ex.file_path h'' s e'' he'')
    ex.symbols h' e' he') exs _ e ?_
  exact foldl_edges_mono _ (fun h' ex e' he' => foldl_edges_mono _
    (fun h'' c e'' he'' => phase2Call_edges_mono ex.file_path h'' c e'' he'')
    ex.calls h' e' he') exs _ e h

theorem list_set_self {α : Type} (l : List α) (i : Nat) (d : α) (h : l[i]? = some d) :
    l.set i d = l := by
  induction l generalizing i with
  | nil => cases h
  | cons a rest ih =>
    cases i with
    | zero =>
      simp only [List.getElem?_cons_zero] at h
      cases h
      rfl
    | succ n =>
      simp only [List.getElem?_cons_succ] at h
      simp only [List.set_cons_succ]
      rw [ih n h]

theorem getNode?_append_old (g : CodeGraph) (ds : List NodeData) (i : Nat)
    (h : i < g.nodes.length) : (g.nodes ++ ds)[i]? = g.nodes[i]? := by
  rw [List.getElem?_append, if_pos h]

theorem pushA_mem {α β : Type} [DecidableEq α] (si : List (α × List β)) (k : α) (v : β) :
    ∀ kv' ∈ pushA si k v, kv' ∈ si ∨
      (kv'.1 = k ∧ ∃ l, kv'.2 = l ++ [v] ∧ ((k, l) ∈ si ∨ l = [])) := by
  induction si with
  | nil =>
    intro kv' h
    simp only [pushA, List.mem_singleton] at h
    subst h
    exact Or.inr ⟨rfl, [], rfl, Or.inr rfl⟩
  | cons kv rest ih =>
    obtain ⟨k', vs⟩ := kv
    intro kv' h
    unfold pushA at h
    by_cases hk : k' = k
    · rw [if_pos hk] at h
      rcases List.mem_cons.mp h with heq | hmem
      · subst heq hk
        exact Or.inr ⟨rfl, vs, rfl, Or.inl (List.mem_cons_self _ _)⟩
      · exact Or.inl (List.mem_cons_of_mem _ hmem)
    · rw [if_neg hk] at h
      rcases List.mem_cons.mp h with heq | hmem
      · subst heq
        exact Or.inl (List.mem_cons_self _ _)
      · rcases ih kv' hmem with hin | ⟨h1, l, h2, h3⟩
        · exact Or.inl (List.mem_cons_of_mem _ hin)
        · rcases h3 with h3 | h3
          · exact Or.inr ⟨h1, l, h2, Or.inl (List.mem_cons_of_mem _ h3)⟩
          · exact Or.inr ⟨h1, l, h2, Or.inr h3⟩

theorem pushA_keys {α β : Type} [DecidableEq α] (si : List (α × List β)) (k : α) (v : β) :
    (pushA si k v).map Prod.fst = si.map Prod.fst ∨
      (pushA si k v).map Prod.fst = si.map Prod.fst ++ [k] ∧ k ∉ si.map Prod.fst := by
  induction si with
  | nil => exact Or.inr ⟨rfl, by simp⟩
  | cons kv rest ih =>
    obtain ⟨k', vs⟩ := kv
    unfold pushA
    by_cases hk : k' = k
    · rw [if_pos hk]
      exact Or.inl rfl
    · rw [if_neg hk]
      rcases ih with h | ⟨h1, h2⟩
      · exact Or.inl (by simp [h])
      · refine Or.inr ⟨by simp [h1], ?_⟩
        simp only [List.map_cons, List.mem_cons]
        rintro (heq | hmem)
        · exact hk heq.symm
        · exact h2 hmem

theorem pushA_keys_nodup {α β : Type} [DecidableEq α] (si : List (α × List β)) (k : α) (v : β)
    (h : (si.map Prod.fst).Nodup) : ((pushA si k v).map Prod.fst).Nodup := by
  rcases pushA_keys si k v with heq | ⟨heq, hnot⟩
  · rw [heq]; exact h
  · rw [heq]
    refine List.Nodup.append h (List.nodup_singleton _) ?_
    intro a ha hmem
    rw [List.mem_singleton] at hmem
    exact hnot (hmem ▸ ha)

theorem insertA_mem {α β : Type} [DecidableEq α] (l : List (α × β)) (k : α) (v : β) :
    ∀ kv' ∈ insertA l k v, kv' ∈ l ∨ kv' = (k, v) := by
  induction l with
  | nil =>
    intro kv' h
    simp only [insertA, List.mem_singleton] at h
    exact Or.inr h
  | cons kv rest ih =>
    obtain ⟨k', v'⟩ := kv
    intro kv' h
    unfold insertA at h
    by_cases hk : k' = k
    · rw [if_pos hk] at h
      rcases List.mem_cons.mp h with heq | hmem
      · subst heq hk
        exact Or.inr rfl
      · exact Or.inl (List.mem_cons_of_mem _ hmem)
    · rw [if_neg hk] at h
      rcases List.mem_cons.mp h with heq | hmem
      · subst heq
        exact Or.inl (List.mem_cons_self _ _)
      · rcases ih kv' hmem with h1 | h1
        · exact Or.inl (List.mem_cons_of_mem _ h1)
        · exact Or.inr h1

/-- The state phase 1 of ingest reaches over a single fresh file node `fi`:
consistent indices (only live non-`File` handles under their own keys, no
duplicate `symbol_index` keys, non-empty buckets), every indexed handle and
every node other than `fi` reachable by an edge from `fi`. -/
def phase1Inv (fi : Nat) (g : CodeGraph) : Prop :=
  fi < g.nodes.length ∧
  (∀ kv ∈ g.symbol_index, kv.2 ≠ []) ∧
  ((g.symbol_index.map Prod.fst).Nodup) ∧
  symIndexOk g ∧
  (∀ kv ∈ g.symbol_index, ∀ i ∈ kv.2, ∃ e ∈ g.edges, e.src = fi ∧ e.tgt = i) ∧
  qualIndexOk g ∧
  (∀ kv ∈ g.qualified_index, ∃ e ∈ g.edges, e.src = fi ∧ e.tgt = kv.2) ∧
  (∀ j d, g.getNode? j = some d → j ≠ fi → ∃ e ∈ g.edges, e.src = fi ∧ e.tgt = j)

/-- One `add_symbol` + `add_edge`-from-`fi` step preserves `phase1Inv`
(provided the new node is not `File`-kind and is filed under its own
name and path, as phase 1 always does). -/
theorem phase1Inv_add (g : CodeGraph) (fi : Nat) (nm : String) (kind : NodeKind) (fp : String)
    (ls le : Nat) (code : String) (ek : EdgeKind) (hkind : kind ≠ NodeKind.File)
    (h : phase1Inv fi g) :
    phase1Inv fi ((g.add_symbol nm kind fp ls le code).1.add_edge fi
      (g.add_symbol nm kind fp ls le code).2 ek) := by
  obtain ⟨h0, h1, h2, h3, h4, h5, h6, h7⟩ := h
  set N := g.nodes.length with hN
  set pay := NodeData.new_symbol nm kind fp ls le code with hpay
  have hnodes : ((g.add_symbol nm kind fp ls le code).1.add_edge fi
      (g.add_symbol nm kind fp ls le code).2 ek).nodes = g.nodes ++ [pay] := rfl
  have hedges : ((g.add_symbol nm kind fp ls le code).1.add_edge fi
      (g.add_symbol nm kind fp ls le code).2 ek).edges = g.edges ++ [⟨fi, N, ek⟩] := rfl
  have hsi : ((g.add_symbol nm kind fp ls le code).1.add_edge fi
      (g.add_symbol nm kind fp ls le code).2 ek).symbol_index = pushA g.symbol_index nm N := rfl
  have hqi : ((g.add_symbol nm kind fp ls le code).1.add_edge fi
      (g.add_symbol nm kind fp ls le code).2 ek).qualified_index =
      insertA g.qualified_index (fp, nm) N := rfl
  set g' := (g.add_symbol nm kind fp ls le code).1.add_edge fi
    (g.add_symbol nm kind fp ls le code).2 ek with hg'
  have hget_old : ∀ i, i < N → g'.getNode? i = g.getNode? i := by
    intro i hi
    show (g.nodes ++ [pay])[i]? = g.nodes[i]?
    rw [List.getElem?_append, if_pos hi]
  have hget_new : g'.getNode? N = some pay := by
    show (g.nodes ++ [pay])[N]? = some pay
    exact List.getElem?_concat_length _ _
  have hemono : ∀ e ∈ g.edges, e ∈ g'.edges := by
    intro e he
    rw [hedges]
    exact List.mem_append_left _ he
  have henew : (⟨fi, N, ek⟩ : Edge) ∈ g'.edges := by
    rw [hedges]
    exact List.mem_append_right _ (List.mem_singleton.mpr rfl)
  have hold_some : ∀ i d, g.getNode? i = some d → g'.getNode? i = some d := by
    intro i d hd
    rw [hget_old i (getNode?_some_lt g i d hd)]
    exact hd
  refine ⟨?_, ?_, ?_, ?_, ?_, ?_, ?_, ?_⟩
  · rw [hnodes]
    simp only [List.length_append, List.length_cons, List.length_nil]
    omega
  · rw [hsi]
    intro kv hkv
    rcases pushA_mem g.symbol_index nm N kv hkv with hold | ⟨_, l, hl, _⟩
    · exact h1 kv hold
    · rw [hl]
      simp
  · rw [hsi]
    exact pushA_keys_nodup g.symbol_index nm N h2
  · unfold symIndexOk
    rw [hsi]
    intro kv hkv i hi
    rcases pushA_mem g.symbol_index nm N kv hkv with hold | ⟨hk, l, hl, hlmem⟩
    · have hf := h3 kv hold i hi
      obtain ⟨d, hd, hrem⟩ := (is_live_iff g i).mp hf.1
      refine ⟨?_, ?_, ?_⟩
      · rw [is_live_iff]
        exact ⟨d, hold_some i d hd, hrem⟩
      · rw [hold_some i d hd]
        have := hf.2.1
        rw [hd] at this
        exact this
      · rw [hold_some i d hd]
        have := hf.2.2
        rw [hd] at this
        exact this
    · rw [hl] at hi
      rcases List.mem_append.mp hi with hil | hiN
      · rcases hlmem with hlmem | hlnil
        · have hf := h3 (nm, l) hlmem i hil
          obtain ⟨d, hd, hrem⟩ := (is_live_iff g i).mp hf.1
          refine ⟨?_, ?_, ?_⟩
          · rw [is_live_iff]
            exact ⟨d, hold_some i d hd, hrem⟩
          · rw [hold_some i d hd, hk]
            have := hf.2.1
            rw [hd] at this
            exact this
          · rw [hold_some i d hd]
            have := hf.2.2
            rw [hd] at this
            exact this
        · rw [hlnil] at hil
          cases hil
      · rw [List.mem_singleton] at hiN
        subst hiN
        refine ⟨?_, ?_, ?_⟩
        · rw [is_live_iff]
          exact ⟨pay, hget_new, rfl⟩
        · rw [hget_new, hk]
          rfl
        · rw [hget_new]
          simpa [hpay, NodeData.new_symbol] using hkind
  · rw [hsi]
    intro kv hkv i hi
    rcases pushA_mem g.symbol_index nm N kv hkv with hold | ⟨hk, l, hl, hlmem⟩
    · obtain ⟨e, he, hes, het⟩ := h4 kv hold i hi
      exact ⟨e, hemono e he, hes, het⟩
    · rw [hl] at hi
      rcases List.mem_append.mp hi with hil | hiN
      · rcases hlmem with hlmem | hlnil
        · obtain ⟨e, he, hes, het⟩ := h4 (nm, l) hlmem i hil
          exact ⟨e, hemono e he, hes, het⟩
        · rw [hlnil] at hil
          cases hil
      · rw [List.mem_singleton] at hiN
        subst hiN
        exact ⟨⟨fi, N, ek⟩, henew, rfl, rfl⟩
  · unfold qualIndexOk
    rw [hqi]
    intro kv hkv
    rcases insertA_mem g.qualified_index (fp, nm) N kv hkv with hold | hnew
    · have hf := h5 kv hold
      obtain ⟨d, hd, hrem⟩ := (is_live_iff g kv.2).mp hf.1
      refine ⟨?_, ?_, ?_, ?_⟩
      · rw [is_live_iff]
        exact ⟨d, hold_some _ d hd, hrem⟩
      · rw [hold_some _ d hd]
        have := hf.2.1
        rw [hd] at this
        exact this
      · rw [hold_some _ d hd]
        have := hf.2.2.1
        rw [hd] at this
        exact this
      · rw [hold_some _ d hd]
        have := hf.2.2.2
        rw [hd] at this
        exact this
    · subst hnew
      refine ⟨?_, ?_, ?_, ?_⟩
      · rw [is_live_iff]
        exact ⟨pay, hget_new, rfl⟩
      · rw [hget_new]
        rfl
      · rw [hget_new]
        rfl
      · rw [hget_new]
        simpa [hpay, NodeData.new_symbol] using hkind
  · rw [hqi]
    intro kv hkv
    rcases insertA_mem g.qualified_index (fp, nm) N kv hkv with hold | hnew
    · obtain ⟨e, he, hes, het⟩ := h6 kv hold
      exact ⟨e, hemono e he, hes, het⟩
    · subst hnew
      exact ⟨⟨fi, N, ek⟩, henew, rfl, rfl⟩
  · intro j d hd hj
    by_cases hjN : j = N
    · subst hjN
      exact ⟨⟨fi, N, ek⟩, henew, rfl, rfl⟩
    · have hjlt : j < N + 1 := by
        have := getNode?_some_lt g' j d hd
        rw [hnodes] at this
        simpa using this
      have hjlt' : j < N := by omega
      rw [hget_old j hjlt'] at hd
      obtain ⟨e, he, hes, het⟩ := h7 j d hd hj
      exact ⟨e, hemono e he, hes, het⟩

theorem phase1Symbols_inv (fi : Nat) (fp : String) (ss : List ExtractedSymbol)
    (g : CodeGraph) (hk : ∀ s ∈ ss, s.kind ≠ NodeKind.File) (h : phase1Inv fi g) :
    phase1Inv fi (CodeGraph.phase1Symbols fi fp g ss) := by
  induction ss generalizing g with
  | nil => exact h
  | cons s rest ih =>
    exact ih _ (fun s' hs' => hk s' (List.mem_cons_of_mem _ hs'))
      (phase1Inv_add g fi s.name s.kind fp s.line_start s.line_end s.code_snippet .Defines
        (hk s (List.mem_cons_self _ _)) h)

theorem phase1Imports_inv (fi : Nat) (fp : String) (ims : List ExtractedImport)
    (g : CodeGraph) (h : phase1Inv fi g) :
    phase1Inv fi (CodeGraph.phase1Imports fi fp g ims) := by
  induction ims generalizing g with
  | nil => exact h
  | cons im rest ih =>
    exact ih _ (phase1Inv_add g fi im.path .Import fp im.line im.line "" .Imports
      (by intro hx; cases hx) h)

theorem phase1Symbols_file_index (fi : Nat) (fp : String) (ss : List ExtractedSymbol)
    (g : CodeGraph) :
    (CodeGraph.phase1Symbols fi fp g ss).file_index = g.file_index := by
  induction ss generalizing g with
  | nil => rfl
  | cons s rest ih => rw [CodeGraph.phase1Symbols, ih]; rfl

theorem phase1Imports_file_index (fi : Nat) (fp : String) (ims : List ExtractedImport)
    (g : CodeGraph) :
    (CodeGraph.phase1Imports fi fp g ims).file_index = g.file_index := by
  induction ims generalizing g with
  | nil => rfl
  | cons im rest ih => rw [CodeGraph.phase1Imports, ih]; rfl

/-- Transfer `phase1Inv` across phases 2–3 (which only append edges). -/
theorem phase1Inv_mono (fi : Nat) (g g' : CodeGraph) (hsne : sameNonEdges g' g)
    (hmono : ∀ e ∈ g.edges, e ∈ g'.edges) (h : phase1Inv fi g) : phase1Inv fi g' := by
  obtain ⟨hnodes, hfidx, hsi, hqi⟩ := hsne
  obtain ⟨h0, h1, h2, h3, h4, h5, h6, h7⟩ := h
  have hgn : ∀ j, g'.getNode? j = g.getNode? j := by
    intro j
    show g'.nodes[j]? = g.nodes[j]?
    rw [hnodes]
  have hlive : ∀ j, g'.is_live j = g.is_live j := by
    intro j
    unfold CodeGraph.is_live
    rw [show g'.getNode? j = g.getNode? j from hgn j]
  refine ⟨by rw [hnodes]; exact h0, by rw [hsi]; exact h1, by rw [hsi]; exact h2,
    ?_, ?_, ?_, ?_, ?_⟩
  · intro kv hkv i hi
    rw [hsi] at hkv
    have hf := h3 kv hkv i hi
    simp only [hlive, hgn]
    exact hf
  · intro kv hkv i hi
    rw [hsi] at hkv
    obtain ⟨e, he, hes, het⟩ := h4 kv hkv i hi
    exact ⟨e, hmono e he, hes, het⟩
  · intro kv hkv
    rw [hqi] at hkv
    have hf := h5 kv hkv
    simp only [hlive, hgn]
    exact hf
  · intro kv hkv
    rw [hqi] at hkv
    obtain ⟨e, he, hes, het⟩ := h6 kv hkv
    exact ⟨e, hmono e he, hes, het⟩
  · intro j d hd hj
    rw [hgn] at hd
    obtain ⟨e, he, hes, het⟩ := h7 j d hd hj
    exact ⟨e, hmono e he, hes, het⟩

theorem purgeSymbolIndex_nonempty (si : List (String × List Nat)) (nm : String) (c : Nat)
    (h : ∀ kv ∈ si, kv.2 ≠ []) :
    ∀ kv' ∈ CodeGraph.purgeSymbolIndex si nm c, kv'.2 ≠ [] := by
  induction si with
  | nil => intro kv' hk; cases hk
  | cons kv rest ih =>
    obtain ⟨k, vs⟩ := kv
    intro kv' hkv'
    simp only [CodeGraph.purgeSymbolIndex] at hkv'
    by_cases hk : k = nm
    · rw [if_pos hk] at hkv'
      by_cases he : (vs.filter (fun i => i ≠ c)).isEmpty = true
      · rw [if_pos he] at hkv'
        exact h kv' (List.mem_cons_of_mem _ hkv')
      · rw [if_neg he] at hkv'
        rcases List.mem_cons.mp hkv' with heq | hmem
        · subst heq
          intro hnil
          have hnil' : vs.filter (fun i => i ≠ c) = [] := hnil
          exact he (by rw [hnil']; rfl)
        · exact h kv' (List.mem_cons_of_mem _ hmem)
    · rw [if_neg hk] at hkv'
      rcases List.mem_cons.mp hkv' with heq | hmem
      · subst heq
        exact h (k, vs) (List.mem_cons_self _ _)
      · exact ih (fun kv0 hkv0 => h kv0 (List.mem_cons_of_mem _ hkv0)) kv' hmem

theorem removeChildNode_si_nonempty (g : CodeGraph) (c : Nat)
    (h : ∀ kv ∈ g.symbol_index, kv.2 ≠ []) :
    ∀ kv' ∈ (g.removeChildNode c).symbol_index, kv'.2 ≠ [] := by
  intro kv' hkv'
  unfold CodeGraph.removeChildNode at hkv'
  cases hn : g.getNode? c with
  | none =>
    rw [hn] at hkv'
    exact h kv' hkv'
  | some nd =>
    rw [hn] at hkv'
    exact purgeSymbolIndex_nonempty g.symbol_index nd.name c h kv' hkv'

theorem foldRC_si_nonempty (C : List Nat) (g : CodeGraph)
    (h : ∀ kv ∈ g.symbol_index, kv.2 ≠ []) :
    ∀ kv' ∈ (C.foldl CodeGraph.removeChildNode g).symbol_index, kv'.2 ≠ [] := by
  induction C generalizing g with
  | nil => exact h
  | cons c rest ih => exact ih _ (removeChildNode_si_nonempty g c h)

/-- On a single-file graph satisfying `phase1Inv`, `remove_file` marks every
node removed and leaves all three indices empty. -/
theorem remove_file_clears_all (G : CodeGraph) (p : String) (fi : Nat)
    (hInv : phase1Inv fi G) (hfidx : G.file_index = [(p, fi)]) :
    (∀ j d, (G.remove_file p).getNode? j = some d → d.removed = true) ∧
    (G.remove_file p).symbol_index = [] ∧
    (G.remove_file p).qualified_index = [] ∧
    (G.remove_file p).file_index = [] := by
  obtain ⟨h0, h1, h2, h3, h4, h5, h6, h7⟩ := hInv
  have hp : lookupA G.file_index p = some fi := by
    rw [hfidx]
    simp [lookupA]
  have hrw : G.remove_file p =
      { (((G.outgoingEdges fi).map (fun e => e.tgt)).foldl CodeGraph.removeChildNode G) with
          nodes := CodeGraph.setRemoved
            ((((G.outgoingEdges fi).map (fun e => e.tgt)).foldl
              CodeGraph.removeChildNode G)).nodes fi true
          file_index := removeA
            ((((G.outgoingEdges fi).map (fun e => e.tgt)).foldl
              CodeGraph.removeChildNode G)).file_index p } := by
    unfold CodeGraph.remove_file
    simp only [hp]
  rw [hrw]
  set C := (G.outgoingEdges fi).map (fun e => e.tgt) with hC
  set g1 := C.foldl CodeGraph.removeChildNode G with hg1
  have hsig : ∀ j, (g1.getNode? j).map nodeSig = (G.getNode? j).map nodeSig :=
    fun j => foldRC_sig C G j
  have hmemC : ∀ e ∈ G.edges, e.src = fi → e.tgt ∈ C := by
    intro e he hsrc
    rw [hC]
    refine List.mem_map_of_mem _ ?_
    rw [CodeGraph.outgoingEdges, List.mem_reverse, List.mem_filter]
    exact ⟨he, by simp [hsrc]⟩
  refine ⟨?_, ?_, ?_, ?_⟩
  · intro j d hd
    have hd' : (CodeGraph.setRemoved g1.nodes fi true)[j]? = some d := hd
    by_cases hj : j = fi
    · subst hj
      cases hn : g1.nodes[j]? with
      | none =>
        rw [setRemoved_getElem?_none g1.nodes j true hn] at hd'
        cases hd'
      | some d1 =>
        rw [setRemoved_getElem?_self g1.nodes j true d1 hn] at hd'
        cases hd'
        rfl
    · rw [setRemoved_getElem?_ne g1.nodes fi j true (fun h => hj h.symm)] at hd'
      have hg1j : g1.getNode? j = some d := hd'
      obtain ⟨d0, hd0, _⟩ := sig_some_of_some G g1 j d (fun i => (hsig i).symm) hg1j
      obtain ⟨e, he, hes, het⟩ := h7 j d0 hd0 hj
      have hjC : j ∈ C := het ▸ hmemC e he hes
      obtain ⟨d2, hard, hrem⟩ := foldRC_marked C G j d0 hjC hd0
      rw [Option.some.inj (hard.symm.trans hg1j)] at hrem
      exact hrem
  · show g1.symbol_index = []
    rw [List.eq_nil_iff_forall_not_mem]
    intro kv hkv
    have hne := foldRC_si_nonempty C G h1 kv hkv
    obtain ⟨i, hi⟩ := List.exists_mem_of_ne_nil kv.2 hne
    have hrel := foldRC_symRel G C G (symRel_refl G h2)
    obtain ⟨kv0, hkv0, _, hsub⟩ := hrel.1 kv hkv
    obtain ⟨e, he, hes, het⟩ := h4 kv0 hkv0 i (hsub hi)
    have hiC : i ∈ C := het ▸ hmemC e he hes
    exact foldRC_children_purged_symbol G h3 C G (symRel_refl G h2) i hiC kv hkv hi
  · show g1.qualified_index = []
    rw [List.eq_nil_iff_forall_not_mem]
    intro kv hkv
    have hrel := foldRC_qualRel G C G (qualRel_refl G)
    have hkv0 := hrel.1 kv hkv
    obtain ⟨e, he, hes, het⟩ := h6 kv hkv0
    have hiC : kv.2 ∈ C := het ▸ hmemC e he hes
    exact foldRC_children_purged_qual G h5 C G (qualRel_refl G) kv.2 hiC kv hkv rfl
  · show removeA g1.file_index p = []
    rw [hg1, foldRC_file_index, hfidx]
    simp [removeA]

/-- Shift every handle of a `symbol_index` by `m`: the index a rebuilt graph
carries when its node list sits behind a dead prefix of length `m`. -/
def shiftSI (m : Nat) (si : List (String × List Nat)) : List (String × List Nat) :=
  si.map (fun kv => (kv.1, kv.2.map (fun i => i + m)))

theorem shiftSI_length (m : Nat) (si : List (String × List Nat)) :
    (shiftSI m si).length = si.length :=
  List.length_map _ _

theorem pushA_shift (m : Nat) (si : List (String × List Nat)) (k : String) (v : Nat) :
    pushA (shiftSI m si) k (v + m) = shiftSI m (pushA si k v) := by
  induction si with
  | nil => simp [pushA, shiftSI]
  | cons kv rest ih =>
    obtain ⟨k0, l0⟩ := kv
    by_cases hk : k0 = k
    · subst hk
      simp [pushA, shiftSI]
    · simp only [shiftSI, List.map_cons, pushA, if_neg hk]
      rw [show pushA (List.map (fun kv => (kv.1, kv.2.map (fun i => i + m))) rest) k (v + m) =
        pushA (shiftSI m rest) k (v + m) from rfl, ih]
      rfl

/-- Running the phase-1 symbol loop over a graph that differs from another
only by a dead node prefix `D` (and correspondingly shifted `symbol_index`)
keeps that relation. -/
theorem phase1Symbols_rel (fiA fiB : Nat) (p : String) (ss : List ExtractedSymbol)
    (D : List NodeData) (gA gB : CodeGraph)
    (hn : gB.nodes = D ++ gA.nodes)
    (hsi : gB.symbol_index = shiftSI D.length gA.symbol_index) :
    (CodeGraph.phase1Symbols fiB p gB ss).nodes =
      D ++ (CodeGraph.phase1Symbols fiA p gA ss).nodes ∧
    (CodeGraph.phase1Symbols fiB p gB ss).symbol_index =
      shiftSI D.length (CodeGraph.phase1Symbols fiA p gA ss).symbol_index := by
  induction ss generalizing gA gB with
  | nil => exact ⟨hn, hsi⟩
  | cons s rest ih =>
    simp only [CodeGraph.phase1Symbols]
    refine ih _ _ ?_ ?_
    · show gB.nodes ++ [NodeData.new_symbol s.name s.kind p s.line_start s.line_end
        s.code_snippet] = D ++ (gA.nodes ++ [NodeData.new_symbol s.name s.kind p
        s.line_start s.line_end s.code_snippet])
      rw [hn, List.append_assoc]
    · show pushA gB.symbol_index s.name gB.nodes.length =
        shiftSI D.length (pushA gA.symbol_index s.name gA.nodes.length)
      rw [hsi, hn, List.length_append, Nat.add_comm D.length gA.nodes.length, pushA_shift]

/-- Same relation through the phase-1 import loop. -/
theorem phase1Imports_rel (fiA fiB : Nat) (p : String) (ims : List ExtractedImport)
    (D : List NodeData) (gA gB : CodeGraph)
    (hn : gB.nodes = D ++ gA.nodes)
    (hsi : gB.symbol_index = shiftSI D.length gA.symbol_index) :
    (CodeGraph.phase1Imports fiB p gB ims).nodes =
      D ++ (CodeGraph.phase1Imports fiA p gA ims).nodes ∧
    (CodeGraph.phase1Imports fiB p gB ims).symbol_index =
      shiftSI D.length (CodeGraph.phase1Imports fiA p gA ims).symbol_index := by
  induction ims generalizing gA gB with
  | nil => exact ⟨hn, hsi⟩
  | cons im rest ih =>
    simp only [CodeGraph.phase1Imports]
    refine ih _ _ ?_ ?_
    · show gB.nodes ++ [NodeData.new_symbol im.path .Import p im.line im.line ""] =
        D ++ (gA.nodes ++ [NodeData.new_symbol im.path .Import p im.line im.line ""])
      rw [hn, List.append_assoc]
    · show pushA gB.symbol_index im.path gB.nodes.length =
        shiftSI D.length (pushA gA.symbol_index im.path gA.nodes.length)
      rw [hsi, hn, List.length_append, Nat.add_comm D.length gA.nodes.length, pushA_shift]

/-- The one-node graph `add_file` produces on the empty graph. -/
def fileOnlyGraph (p : String) : CodeGraph :=
  { nodes := [NodeData.new_file p], edges := [], file_index := [(p, 0)],
    symbol_index := [], qualified_index := [] }

theorem add_file_empty (p : String) :
    CodeGraph.empty.add_file p = (fileOnlyGraph p, 0) := rfl

theorem add_file_found (g : CodeGraph) (p : String) (fi : Nat)
    (h : lookupA g.file_index p = some fi) :
    g.add_file p = ({ g with nodes := CodeGraph.setRemoved g.nodes fi false }, fi) := by
  unfold CodeGraph.add_file
  simp only [h]

theorem add_file_absent (g : CodeGraph) (p : String)
    (h : lookupA g.file_index p = none) :
    g.add_file p = ({ g with nodes := g.nodes ++ [NodeData.new_file p],
                             file_index := g.file_index ++ [(p, g.nodes.length)] },
      g.nodes.length) := by
  unfold CodeGraph.add_file
  simp only [h]

theorem phase1Inv_fileOnly (p : String) : phase1Inv 0 (fileOnlyGraph p) := by
  refine ⟨by simp [fileOnlyGraph], ?_, by simp [fileOnlyGraph], ?_, ?_, ?_, ?_, ?_⟩
  · intro kv hkv
    cases hkv
  · intro kv hkv
    cases hkv
  · intro kv hkv
    cases hkv
  · intro kv hkv
    cases hkv
  · intro kv hkv
    cases hkv
  · intro j d hd hj
    exfalso
    have hlt := getNode?_some_lt _ j d hd
    simp [fileOnlyGraph] at hlt
    exact hj hlt

/-- C1 amended: ingest one extraction into the empty graph, remove its file,
re-add it and re-ingest the same extraction. All node-derived `stats` fields
(`total_nodes`, `file_count`, `symbol_count`, `unique_symbol_names`) return to
the snapshot; `total_edges` does not (see the counterexample), because
`remove_file` leaves the edge store untouched while re-ingest appends fresh
edges. Symbols of `File` kind are excluded, as the extractors never emit
them. -/
theorem stats_readd_cycle_preserved_except_edges (ex : FileExtractions)
    (hk : ∀ s ∈ ex.symbols, s.kind ≠ NodeKind.File) :
    ((((CodeGraph.empty.build_from_extractions [ex]).remove_file ex.file_path).add_file
        ex.file_path).1.build_from_extractions [ex]).stats.total_nodes =
      (CodeGraph.empty.build_from_extractions [ex]).stats.total_nodes ∧
    ((((CodeGraph.empty.build_from_extractions [ex]).remove_file ex.file_path).add_file
        ex.file_path).1.build_from_extractions [ex]).stats.file_count =
      (CodeGraph.empty.build_from_extractions [ex]).stats.file_count ∧
    ((((CodeGraph.empty.build_from_extractions [ex]).remove_file ex.file_path).add_file
        ex.file_path).1.build_from_extractions [ex]).stats.symbol_count =
      (CodeGraph.empty.build_from_extractions [ex]).stats.symbol_count ∧
    ((((CodeGraph.empty.build_from_extractions [ex]).remove_file ex.file_path).add_file
        ex.file_path).1.build_from_extractions [ex]).stats.unique_symbol_names =
      (CodeGraph.empty.build_from_extractions [ex]).stats.unique_symbol_names := by
  set G1 := CodeGraph.empty.build_from_extractions [ex] with hG1def
  set gr := G1.remove_file ex.file_path with hgrdef
  set G2 := (gr.add_file ex.file_path).1.build_from_extractions [ex] with hG2def
  -- the first ingest: phase 1 over the empty graph, then edge-only phases
  have hPA : CodeGraph.phase1File CodeGraph.empty ex =
      CodeGraph.phase1Imports 0 ex.file_path
        (CodeGraph.phase1Symbols 0 ex.file_path (fileOnlyGraph ex.file_path) ex.symbols)
        ex.imports := by
    simp only [CodeGraph.phase1File]
    rw [add_file_empty]
  have hsne1 := build_sne CodeGraph.empty [ex]
  have hInvPA : phase1Inv 0 (CodeGraph.phase1File CodeGraph.empty ex) := by
    rw [hPA]
    exact phase1Imports_inv 0 ex.file_path ex.imports _
      (phase1Symbols_inv 0 ex.file_path ex.symbols _ hk (phase1Inv_fileOnly ex.file_path))
  have hInvG1 : phase1Inv 0 G1 :=
    phase1Inv_mono 0 _ _ hsne1 (fun e he => build_edges_mono _ _ e he) hInvPA
  have hfidxPA : (CodeGraph.phase1File CodeGraph.empty ex).file_index =
      [(ex.file_path, 0)] := by
    rw [hPA, phase1Imports_file_index, phase1Symbols_file_index]
    rfl
  have hfidxG1 : G1.file_index = [(ex.file_path, 0)] := hsne1.2.1.trans hfidxPA
  -- removing the only file clears everything
  have hclear := remove_file_clears_all G1 ex.file_path 0 hInvG1 hfidxG1
  have hdead : ∀ d ∈ gr.nodes, d.removed = true := by
    intro d hd
    obtain ⟨i, hi⟩ := List.getElem?_of_mem hd
    exact hclear.1 i d hi
  -- re-adding the file appends a fresh node behind the dead prefix
  have hlookup_gr : lookupA gr.file_index ex.file_path = none := by
    rw [hclear.2.2.2]
    rfl
  have haddB : gr.add_file ex.file_path =
      ({ gr with nodes := gr.nodes ++ [NodeData.new_file ex.file_path],
                 file_index := gr.file_index ++ [(ex.file_path, gr.nodes.length)] },
        gr.nodes.length) :=
    add_file_absent gr ex.file_path hlookup_gr
  have hbnodes : (gr.add_file ex.file_path).1.nodes =
      gr.nodes ++ [NodeData.new_file ex.file_path] := by
    rw [haddB]
  have hbfidx : (gr.add_file ex.file_path).1.file_index =
      [(ex.file_path, gr.nodes.length)] := by
    rw [haddB]
    show gr.file_index ++ [(ex.file_path, gr.nodes.length)] = _
    rw [hclear.2.2.2]
    rfl
  have hbsi : (gr.add_file ex.file_path).1.symbol_index = [] := by
    rw [haddB]
    exact hclear.2.1
  -- the second ingest resurrects the fresh file node in place
  have hlookup_b : lookupA (gr.add_file ex.file_path).1.file_index ex.file_path =
      some gr.nodes.length := by
    rw [hbfidx]
    simp [lookupA]
  have hnodesK : (gr.add_file ex.file_path).1.nodes[gr.nodes.length]? =
      some (NodeData.new_file ex.file_path) := by
    rw [hbnodes]
    exact List.getElem?_concat_length _ _
  have haddBB : (gr.add_file ex.file_path).1.add_file ex.file_path =
      ((gr.add_file ex.file_path).1, gr.nodes.length) := by
    rw [add_file_found _ _ _ hlookup_b]
    have hsr : CodeGraph.setRemoved (gr.add_file ex.file_path).1.nodes
        gr.nodes.length false = (gr.add_file ex.file_path).1.nodes := by
      unfold CodeGraph.setRemoved
      simp only [hnodesK]
      exact list_set_self _ _ _ hnodesK
    rw [hsr]
  have hPB : CodeGraph.phase1File (gr.add_file ex.file_path).1 ex =
      CodeGraph.phase1Imports gr.nodes.length ex.file_path
        (CodeGraph.phase1Symbols gr.nodes.length ex.file_path
          (gr.add_file ex.file_path).1 ex.symbols) ex.imports := by
    simp only [CodeGraph.phase1File]
    rw [haddBB]
  -- the two phase-1 runs differ exactly by the dead prefix
  have hrelS := phase1Symbols_rel 0 gr.nodes.length ex.file_path ex.symbols gr.nodes
    (fileOnlyGraph ex.file_path) (gr.add_file ex.file_path).1
    (by rw [hbnodes]; rfl) (by rw [hbsi]; rfl)
  have hrelI := phase1Imports_rel 0 gr.nodes.length ex.file_path ex.imports gr.nodes
    (CodeGraph.phase1Symbols 0 ex.file_path (fileOnlyGraph ex.file_path) ex.symbols)
    (CodeGraph.phase1Symbols gr.nodes.length ex.file_path
      (gr.add_file ex.file_path).1 ex.symbols)
    hrelS.1 hrelS.2
  have hsne2 := build_sne (gr.add_file ex.file_path).1 [ex]
  have hG2n : G2.nodes = gr.nodes ++ G1.nodes := by
    have h1 : G2.nodes = (CodeGraph.phase1File (gr.add_file ex.file_path).1 ex).nodes :=
      hsne2.1
    have h2 : G1.nodes = (CodeGraph.phase1File CodeGraph.empty ex).nodes := hsne1.1
    rw [h1, hPB, hrelI.1, h2, hPA]
  have hG2si : G2.symbol_index = shiftSI gr.nodes.length G1.symbol_index := by
    have h1 : G2.symbol_index =
        (CodeGraph.phase1File (gr.add_file ex.file_path).1 ex).symbol_index := hsne2.2.2.1
    have h2 : G1.symbol_index =
        (CodeGraph.phase1File CodeGraph.empty ex).symbol_index := hsne1.2.2.1
    rw [h1, hPB, hrelI.2, h2, hPA]
  -- dead nodes contribute nothing to the live counts
  have hc1 : gr.nodes.countP (fun n => !n.removed && decide (n.kind = NodeKind.File)) = 0 :=
    List.countP_eq_zero.mpr (fun d hd => by simp [hdead d hd])
  have hc2 : gr.nodes.countP (fun n => !n.removed && !decide (n.kind = NodeKind.File)) = 0 :=
    List.countP_eq_zero.mpr (fun d hd => by simp [hdead d hd])
  have hfc : G2.stats.file_count = G1.stats.file_count := by
    show G2.nodes.countP (fun n => !n.removed && decide (n.kind = NodeKind.File)) =
      G1.nodes.countP (fun n => !n.removed && decide (n.kind = NodeKind.File))
    rw [hG2n, List.countP_append, hc1]
    omega
  have hsc : G2.stats.symbol_count = G1.stats.symbol_count := by
    show G2.nodes.countP (fun n => !n.removed && !decide (n.kind = NodeKind.File)) =
      G1.nodes.countP (fun n => !n.removed && !decide (n.kind = NodeKind.File))
    rw [hG2n, List.countP_append, hc2]
    omega
  have hun : G2.stats.unique_symbol_names = G1.stats.unique_symbol_names := by
    show G2.symbol_index.length = G1.symbol_index.length
    rw [hG2si, shiftSI_length]
  refine ⟨?_, hfc, hsc, hun⟩
  show G2.stats.file_count + G2.stats.symbol_count =
    G1.stats.file_count + G1.stats.symbol_count
  rw [hfc, hsc]

/-- Witness for C1 amended at the concrete extraction `cexExA` (file `a.rs`
with one function `f`): the hypothesis holds and all four node-derived stats
fields round-trip. -/
theorem stats_readd_cycle_preserved_except_edges_witness :
    (∀ s ∈ cexExA.symbols, s.kind ≠ NodeKind.File) ∧
    (((((CodeGraph.empty.build_from_extractions [cexExA]).remove_file
          cexExA.file_path).add_file cexExA.file_path).1.build_from_extractions
            [cexExA]).stats.total_nodes =
        (CodeGraph.empty.build_from_extractions [cexExA]).stats.total_nodes ∧
      ((((CodeGraph.empty.build_from_extractions [cexExA]).remove_file
          cexExA.file_path).add_file cexExA.file_path).1.build_from_extractions
            [cexExA]).stats.file_count =
        (CodeGraph.empty.build_from_extractions [cexExA]).stats.file_count ∧
      ((((CodeGraph.empty.build_from_extractions [cexExA]).remove_file
          cexExA.file_path).add_file cexExA.file_path).1.build_from_extractions
            [cexExA]).stats.symbol_count =
        (CodeGraph.empty.build_from_extractions [cexExA]).stats.symbol_count ∧
      ((((CodeGraph.empty.build_from_extractions [cexExA]).remove_file
          cexExA.file_path).add_file cexExA.file_path).1.build_from_extractions
            [cexExA]).stats.unique_symbol_names =
        (CodeGraph.empty.build_from_extractions [cexExA]).stats.unique_symbol_names) :=
  ⟨by decide, stats_readd_cycle_preserved_except_edges cexExA (by decide)⟩

theorem insertKey_eq (l : List String) (p : String) :
    CodeGraph.insertKey l p = if p ∈ l then l else l ++ [p] := by
  induction l with
  | nil => simp [CodeGraph.insertKey]
  | cons q rest ih =>
    simp only [CodeGraph.insertKey]
    by_cases hq : q = p
    · subst hq
      simp
    · rw [if_neg hq, ih]
      by_cases hm : p ∈ rest
      · have hc : p ∈ q :: rest := List.mem_cons_of_mem _ hm
        simp [hm, hc]
      · have hc : p ∉ q :: rest := by
          intro hx
          rcases List.mem_cons.mp hx with he | hr
          · exact hq he.symm
          · exact hm hr
        simp [hm, hc]

theorem mem_insertKey (l : List String) (p x : String) :
    x ∈ CodeGraph.insertKey l p ↔ x ∈ l ∨ x = p := by
  rw [insertKey_eq]
  by_cases hm : p ∈ l
  · rw [if_pos hm]
    constructor
    · exact Or.inl
    · rintro (h | h)
      · exact h
      · exact h ▸ hm
  · rw [if_neg hm]
    simp [List.mem_append]

theorem nodup_insertKey (l : List String) (p : String) (h : l.Nodup) :
    (CodeGraph.insertKey l p).Nodup := by
  rw [insertKey_eq]
  by_cases hm : p ∈ l
  · rw [if_pos hm]
    exact h
  · rw [if_neg hm]
    refine List.Nodup.append h (List.nodup_singleton _) ?_
    intro a ha hb
    rw [List.mem_singleton] at hb
    exact hm (hb ▸ ha)

theorem mem_foldl_insertKey (l acc : List String) (x : String) :
    x ∈ l.foldl CodeGraph.insertKey acc ↔ x ∈ acc ∨ x ∈ l := by
  induction l generalizing acc with
  | nil => simp
  | cons p rest ih =>
    rw [List.foldl_cons, ih, mem_insertKey]
    simp only [List.mem_cons]
    tauto

theorem nodup_foldl_insertKey (l acc : List String) (h : acc.Nodup) :
    (l.foldl CodeGraph.insertKey acc).Nodup := by
  induction l generalizing acc with
  | nil => exact h
  | cons p rest ih => exact ih _ (nodup_insertKey acc p h)

theorem insertKey_absent (l : List String) (p : String) (h : p ∉ l) :
    CodeGraph.insertKey l p = l ++ [p] := by
  rw [insertKey_eq, if_neg h]

theorem foldl_insertKey_of_nodup (l acc : List String) (h : (acc ++ l).Nodup) :
    l.foldl CodeGraph.insertKey acc = acc ++ l := by
  induction l generalizing acc with
  | nil => simp
  | cons p rest ih =>
    have hp : p ∉ acc := by
      intro hpa
      exact (List.nodup_append.mp h).2.2 hpa (List.mem_cons_self _ _)
    rw [List.foldl_cons, insertKey_absent acc p hp]
    have h' : ((acc ++ [p]) ++ rest).Nodup := by
      rw [← List.append_cons]
      exact h
    rw [ih (acc ++ [p]) h']
    exact (List.append_cons acc p rest).symm

theorem pushA_keys_eq {β : Type} (si : List (String × List β)) (k : String) (v : β) :
    (pushA si k v).map Prod.fst = CodeGraph.insertKey (si.map Prod.fst) k := by
  induction si with
  | nil => rfl
  | cons kv rest ih =>
    obtain ⟨k', vs⟩ := kv
    simp only [pushA, CodeGraph.insertKey, List.map_cons]
    by_cases hk : k' = k
    · rw [if_pos hk, if_pos hk]
      simp
    · rw [if_neg hk, if_neg hk]
      simp only [List.map_cons]
      rw [ih]

theorem lookupA_append_none {α β : Type} [DecidableEq α] (l1 l2 : List (α × β)) (k : α)
    (h : lookupA l1 k = none) : lookupA (l1 ++ l2) k = lookupA l2 k := by
  induction l1 with
  | nil => rfl
  | cons kv rest ih =>
    obtain ⟨k', v'⟩ := kv
    by_cases hk : k' = k
    · rw [show lookupA ((k', v') :: rest) k = some v' from by simp [lookupA, hk]] at h
      cases h
    · rw [show lookupA ((k', v') :: rest) k = lookupA rest k from by simp [lookupA, hk]] at h
      rw [List.cons_append,
        show lookupA ((k', v') :: (rest ++ l2)) k = lookupA (rest ++ l2) k from
          by simp [lookupA, hk]]
      exact ih h

/-- The file-re-adding loop of `compact` over pairwise-distinct fresh paths:
one new live `File` node per path, `symbol_index` untouched. -/
theorem foldl_add_file_nodes (ps : List String) (ng : CodeGraph) (hN : ps.Nodup)
    (h : ∀ p ∈ ps, lookupA ng.file_index p = none) :
    (ps.foldl (fun ng p => (ng.add_file p).1) ng).nodes =
      ng.nodes ++ ps.map NodeData.new_file ∧
    (ps.foldl (fun ng p => (ng.add_file p).1) ng).symbol_index = ng.symbol_index := by
  induction ps generalizing ng with
  | nil => exact ⟨by simp, rfl⟩
  | cons p rest ih =>
    rw [List.foldl_cons]
    have hadd := add_file_absent ng p (h p (List.mem_cons_self _ _))
    have hrest : ∀ q ∈ rest, lookupA (ng.add_file p).1.file_index q = none := by
      intro q hq
      rw [show (ng.add_file p).1.file_index = ng.file_index ++ [(p, ng.nodes.length)] from
        by rw [hadd]]
      rw [lookupA_append_none _ _ _ (h q (List.mem_cons_of_mem _ hq))]
      have hpq : p ≠ q := by
        intro he
        exact (List.nodup_cons.mp hN).1 (he ▸ hq)
      simp [lookupA, hpq]
    obtain ⟨ih1, ih2⟩ := ih (ng.add_file p).1 (List.nodup_cons.mp hN).2 hrest
    refine ⟨?_, ?_⟩
    · rw [ih1, show (ng.add_file p).1.nodes = ng.nodes ++ [NodeData.new_file p] from
        by rw [hadd]]
      simp [List.append_assoc]
    · rw [ih2]
      rw [hadd]

/-- The node-re-adding loop of `compact`: fresh payloads for exactly the live
non-`File` nodes, in node order (`new_graph` nodes and `symbol_index` do not
depend on the `old_to_new` bookkeeping). -/
theorem readdNodes_nodes (ns : List NodeData) (ng : CodeGraph) (otn : List (Nat × Nat))
    (idx : Nat) :
    (CodeGraph.readdNodes ng otn idx ns).1.nodes =
      ng.nodes ++ (ns.filter (fun n => !n.removed && !decide (n.kind = NodeKind.File))).map
        (fun n => NodeData.new_symbol n.name n.kind n.file_path n.line_start n.line_end
          n.code_snippet) := by
  induction ns generalizing ng otn idx with
  | nil => simp [CodeGraph.readdNodes]
  | cons n rest ih =>
    simp only [CodeGraph.readdNodes]
    by_cases hrem : n.removed = true
    · rw [if_pos hrem, ih]
      simp [List.filter_cons, hrem]
    · rw [if_neg hrem]
      by_cases hkind : n.kind = NodeKind.File
      · rw [if_pos hkind]
        cases lookupA ng.file_index n.file_path with
        | none =>
          rw [ih]
          simp [List.filter_cons, hrem, hkind]
        | some new_idx =>
          rw [ih]
          simp [List.filter_cons, hrem, hkind]
      · rw [if_neg hkind, ih]
        rw [show (ng.add_symbol n.name n.kind n.file_path n.line_start n.line_end
          n.code_snippet).1.nodes = ng.nodes ++ [NodeData.new_symbol n.name n.kind
            n.file_path n.line_start n.line_end n.code_snippet] from rfl]
        simp [List.filter_cons, hrem, hkind, List.append_assoc]

/-- `symbol_index` keys produced by the node-re-adding loop: the left-dedup
(`insertKey` fold) of the live non-`File` node names. -/
theorem readdNodes_si_keys (ns : List NodeData) (ng : CodeGraph) (otn : List (Nat × Nat))
    (idx : Nat) :
    (CodeGraph.readdNodes ng otn idx ns).1.symbol_index.map Prod.fst =
      ((ns.filter (fun n => !n.removed && !decide (n.kind = NodeKind.File))).map
        (fun n => n.name)).foldl CodeGraph.insertKey (ng.symbol_index.map Prod.fst) := by
  induction ns generalizing ng otn idx with
  | nil => rfl
  | cons n rest ih =>
    simp only [CodeGraph.readdNodes]
    by_cases hrem : n.removed = true
    · rw [if_pos hrem, ih]
      simp [List.filter_cons, hrem]
    · rw [if_neg hrem]
      by_cases hkind : n.kind = NodeKind.File
      · rw [if_pos hkind]
        cases lookupA ng.file_index n.file_path with
        | none =>
          rw [ih]
          simp [List.filter_cons, hrem, hkind]
        | some new_idx =>
          rw [ih]
          simp [List.filter_cons, hrem, hkind]
      · rw [if_neg hkind, ih]
        rw [show (ng.add_symbol n.name n.kind n.file_path n.line_start n.line_end
          n.code_snippet).1.symbol_index = pushA ng.symbol_index n.name ng.nodes.length
          from rfl]
        rw [pushA_keys_eq]
        simp [List.filter_cons, hrem, hkind]

/-- The edge-re-adding loop of `compact` touches only the edge store. -/
theorem edgeFold_sne (otn : List (Nat × Nat)) (es : List Edge) (ng : CodeGraph) :
    sameNonEdges (es.foldl (fun ng e =>
      match lookupA otn e.src, lookupA otn e.tgt with
      | some new_src, some new_tgt => ng.add_edge new_src new_tgt e.kind
      | _, _ => ng) ng) ng := by
  refine foldl_sne _ ?_ es ng
  intro ng' e
  cases lookupA otn e.src with
  | none => exact sameNonEdges_refl ng'
  | some new_src =>
    cases lookupA otn e.tgt with
    | none => exact sameNonEdges_refl ng'
    | some new_tgt => exact add_edge_sne ng' new_src new_tgt e.kind

/-- The index consistency `compact` relies on: `symbol_index` entries are
live non-`File` handles filed under their node's name, buckets are non-empty,
keys are distinct, every live non-`File` node is registered under its name,
and live `File` nodes carry pairwise-distinct paths. The engine maintains all
of these across its mutations. -/
def compactWF (g : CodeGraph) : Prop :=
  symIndexOk g ∧
  (∀ kv ∈ g.symbol_index, kv.2 ≠ []) ∧
  ((g.symbol_index.map Prod.fst).Nodup) ∧
  (∀ d ∈ g.nodes, d.removed = false → d.kind ≠ NodeKind.File →
    ∃ kv ∈ g.symbol_index, kv.1 = d.name) ∧
  (((g.nodes.filter (fun n => !n.removed && decide (n.kind = NodeKind.File))).map
    (fun n => n.file_path)).Nodup)

/-- C2 amended: on a graph satisfying the engine's index invariants,
`compact()` preserves the four node-derived `stats` fields — `total_nodes`,
`file_count`, `symbol_count`, `unique_symbol_names` — while `total_edges`
(and hence `stats()` itself, one of the queries the spec requires unchanged)
is NOT preserved whenever a dangling edge exists; see the counterexample. -/
theorem compact_preserves_node_stats (g : CodeGraph) (hWF : compactWF g) :
    g.compact.stats.total_nodes = g.stats.total_nodes ∧
    g.compact.stats.file_count = g.stats.file_count ∧
    g.compact.stats.symbol_count = g.stats.symbol_count ∧
    g.compact.stats.unique_symbol_names = g.stats.unique_symbol_names := by
  obtain ⟨hS, hNEm, hND, hC, hP⟩ := hWF
  have hrep : sameNonEdges g.compact
      ((CodeGraph.readdNodes ((CodeGraph.livePaths g).foldl
        (fun ng p => (ng.add_file p).1) CodeGraph.empty) [] 0 g.nodes).1) := by
    simp only [CodeGraph.compact]
    exact edgeFold_sne _ _ _
  have hlp : CodeGraph.livePaths g =
      (g.nodes.filter (fun n => !n.removed && decide (n.kind = NodeKind.File))).map
        (fun n => n.file_path) := by
    unfold CodeGraph.livePaths
    exact foldl_insertKey_of_nodup _ [] (by simpa using hP)
  have hlpN : (CodeGraph.livePaths g).Nodup := by
    rw [hlp]
    exact hP
  have hn0 := foldl_add_file_nodes (CodeGraph.livePaths g) CodeGraph.empty hlpN
    (fun p _ => rfl)
  have hcnodes : g.compact.nodes =
      (CodeGraph.livePaths g).map NodeData.new_file ++
      (g.nodes.filter (fun n => !n.removed && !decide (n.kind = NodeKind.File))).map
        (fun n => NodeData.new_symbol n.name n.kind n.file_path n.line_start n.line_end
          n.code_snippet) := by
    rw [hrep.1, readdNodes_nodes, hn0.1]
    rfl
  have hckeys : g.compact.symbol_index.map Prod.fst =
      ((g.nodes.filter (fun n => !n.removed && !decide (n.kind = NodeKind.File))).map
        (fun n => n.name)).foldl CodeGraph.insertKey [] := by
    rw [hrep.2.2.1, readdNodes_si_keys, hn0.2]
    rfl
  have hfc : g.compact.stats.file_count = g.stats.file_count := by
    show g.compact.nodes.countP (fun n => !n.removed && decide (n.kind = NodeKind.File)) =
      g.nodes.countP (fun n => !n.removed && decide (n.kind = NodeKind.File))
    rw [hcnodes, List.countP_append, List.countP_map, List.countP_map]
    have h1 : List.countP ((fun n => !n.removed && decide (n.kind = NodeKind.File)) ∘
        NodeData.new_file) (CodeGraph.livePaths g) = (CodeGraph.livePaths g).length :=
      List.countP_eq_length.mpr (fun p _ => by simp [NodeData.new_file, fileName])
    have h2 : List.countP ((fun n => !n.removed && decide (n.kind = NodeKind.File)) ∘
        (fun n => NodeData.new_symbol n.name n.kind n.file_path n.line_start n.line_end
          n.code_snippet))
        (g.nodes.filter (fun n => !n.removed && !decide (n.kind = NodeKind.File))) = 0 := by
      refine List.countP_eq_zero.mpr (fun d hd => ?_)
      have hdf := (List.mem_filter.mp hd).2
      simp only [Bool.and_eq_true, Bool.not_eq_true', decide_eq_false_iff_not] at hdf
      simp [NodeData.new_symbol, hdf.2]
    rw [h1, h2, hlp, List.length_map, ← List.countP_eq_length_filter]
    omega
  have hsc : g.compact.stats.symbol_count = g.stats.symbol_count := by
    show g.compact.nodes.countP (fun n => !n.removed && !decide (n.kind = NodeKind.File)) =
      g.nodes.countP (fun n => !n.removed && !decide (n.kind = NodeKind.File))
    rw [hcnodes, List.countP_append, List.countP_map, List.countP_map]
    have h1 : List.countP ((fun n => !n.removed && !decide (n.kind = NodeKind.File)) ∘
        NodeData.new_file) (CodeGraph.livePaths g) = 0 :=
      List.countP_eq_zero.mpr (fun p _ => by simp [NodeData.new_file, fileName])
    have h2 : List.countP ((fun n => !n.removed && !decide (n.kind = NodeKind.File)) ∘
        (fun n => NodeData.new_symbol n.name n.kind n.file_path n.line_start n.line_end
          n.code_snippet))
        (g.nodes.filter (fun n => !n.removed && !decide (n.kind = NodeKind.File))) =
        (g.nodes.filter
          (fun n => !n.removed && !decide (n.kind = NodeKind.File))).length := by
      refine List.countP_eq_length.mpr (fun d hd => ?_)
      have hdf := (List.mem_filter.mp hd).2
      simp only [Bool.and_eq_true, Bool.not_eq_true', decide_eq_false_iff_not] at hdf
      simp [NodeData.new_symbol, hdf.2]
    rw [h1, h2, ← List.countP_eq_length_filter]
    omega
  have hun : g.compact.stats.unique_symbol_names = g.stats.unique_symbol_names := by
    show g.compact.symbol_index.length = g.symbol_index.length
    rw [show g.compact.symbol_index.length =
      (g.compact.symbol_index.map Prod.fst).length from (List.length_map _ _).symm]
    rw [show g.symbol_index.length = (g.symbol_index.map Prod.fst).length from
      (List.length_map _ _).symm]
    rw [hckeys]
    refine ((List.perm_ext_iff_of_nodup (nodup_foldl_insertKey _ _ List.nodup_nil)
      hND).mpr ?_).length_eq
    intro a
    rw [mem_foldl_insertKey]
    constructor
    · rintro (h | h)
      · cases h
      · obtain ⟨d, hd, hname⟩ := List.mem_map.mp h
        have hdm := List.mem_filter.mp hd
        have hdf := hdm.2
        simp only [Bool.and_eq_true, Bool.not_eq_true', decide_eq_false_iff_not] at hdf
        obtain ⟨kv, hkv, hk⟩ := hC d hdm.1 hdf.1 hdf.2
        refine List.mem_map.mpr ⟨kv, hkv, ?_⟩
        rw [hk]
        exact hname
    · intro h
      refine Or.inr ?_
      obtain ⟨kv, hkv, hk⟩ := List.mem_map.mp h
      obtain ⟨i, hi⟩ := List.exists_mem_of_ne_nil kv.2 (hNEm kv hkv)
      have hf := hS kv hkv i hi
      obtain ⟨d, hd, hrem⟩ := (is_live_iff g i).mp hf.1
      have hdm : d ∈ g.nodes := List.getElem?_mem hd
      have hdn : d.name = kv.1 := by
        have h1 := hf.2.1
        rw [hd] at h1
        simpa using h1
      have hdk : d.kind ≠ NodeKind.File := by
        have h1 := hf.2.2
        rw [hd] at h1
        simpa using h1
      refine List.mem_map.mpr ⟨d, ?_, ?_⟩
      · refine List.mem_filter.mpr ⟨hdm, ?_⟩
        simp [hrem, hdk]
      · show d.name = a
        rw [hdn]
        exact hk
  refine ⟨?_, hfc, hsc, hun⟩
  show g.compact.stats.file_count + g.compact.stats.symbol_count =
    g.stats.file_count + g.stats.symbol_count
  rw [hfc, hsc]

/-- Witness for C2 amended at a concrete input: the one-file graph `cexG1`
satisfies the index invariants, and `compact` preserves its four node-derived
stats fields. -/
theorem compact_preserves_node_stats_witness :
    compactWF cexG1 ∧
    (cexG1.compact.stats.total_nodes = cexG1.stats.total_nodes ∧
     cexG1.compact.stats.file_count = cexG1.stats.file_count ∧
     cexG1.compact.stats.symbol_count = cexG1.stats.symbol_count ∧
     cexG1.compact.stats.unique_symbol_names = cexG1.stats.unique_symbol_names) :=
  ⟨by unfold compactWF symIndexOk; decide,
   compact_preserves_node_stats cexG1 (by unfold compactWF symIndexOk; decide)⟩

/-- Witness for C5 amended at a concrete input: in `cexC5graph`, the node
`"foo"` matches the query `"FOO"` up to case; with `limit = 5` (at least the
pool size) it is found, with score 1. -/
theorem search_case_fold_prefix_tier_witness :
    (cexC5graph.getNode? 2 = some (NodeData.new_symbol "foo" .Function "m.rs" 2 2 "c2")) ∧
    (CodeGraph.fuzzyScored cexC5graph "FOO" (strLower "FOO")).length ≤ 5 ∧
    ∃ r ∈ cexC5graph.search "FOO" 5, r.symbol = "foo" :=
  ⟨by decide, by decide,
    (search_case_fold_prefix_tier cexC5graph "FOO"
      (NodeData.new_symbol "foo" .Function "m.rs" 2 2 "c2") ("foo", [2]) 2 5
      (by decide) (by decide) (by decide) (by decide) (by decide) (by decide)
      (by decide) (by decide) (by decide) (by decide)).2⟩

end Anchor
